import Mathlib

set_option maxHeartbeats 1000000

/-!
Verification of the import-grouping engine of go-imports-group.

The development shallowly embeds the functions of `pkg/formatter/formatter.go`
(`extractImports`, `classifyImport`, `getOrgInfo`, `sortImportsInGroup`,
`groupImports`, `replaceImports`, `addGroupImports`, `addOrgImports`,
`formatImportSpec`, `shouldAddSpacingBetweenImports`, `formatFile`,
`ProcessFileWithOutput`, `ProcessFiles`).

Go strings are modelled as lists of characters (`GoStr`); Go's lexicographic
byte order on valid UTF-8 strings coincides with the lexicographic order on
their character sequences, which is the `List.Lex` linear order used here.
`sort.Slice` with a strict `less` function is modelled as `List.insertionSort`
with the corresponding non-strict relation; on the lists the formatter sorts
the sort keys are pairwise distinct, so every sorting algorithm yields the
same, uniquely determined result.
-/

namespace Gig

/-- Go strings, modelled as their character sequences. -/
abbrev GoStr := List Char

/-- Embeds a Lean string literal as a `GoStr`. -/
def str (s : String) : GoStr := s.toList

/-- Go `strings.HasPrefix s pre`: a plain string-prefix test. -/
def hasPfx (s pre : GoStr) : Bool := pre.isPrefixOf s

/-- Go `strings.TrimPrefix s pre`. -/
def trimPfx (s pre : GoStr) : GoStr := if hasPfx s pre then s.drop pre.length else s

/-- Go `strings.Split s sep` for a one-character separator. -/
def goSplit (sep : Char) : GoStr → List GoStr
  | [] => [[]]
  | c :: rest =>
    if c = sep then [] :: goSplit sep rest
    else
      match goSplit sep rest with
      | [] => [[c]]
      | seg :: segs => (c :: seg) :: segs

/-- Whitespace recognizer backing the model of Go `strings.TrimSpace`. -/
def isSpc (c : Char) : Bool := c = ' ' || c = '\t' || c = '\n' || c = '\r'

/-- Left half of Go `strings.TrimSpace`. -/
def trimLeft (l : GoStr) : GoStr := l.dropWhile isSpc

/-- Right half of Go `strings.TrimSpace`. -/
def trimRight (l : GoStr) : GoStr := (l.reverse.dropWhile isSpc).reverse

/-- Go `strings.TrimSpace`. -/
def trimSpace (l : GoStr) : GoStr := trimRight (trimLeft l)

/-- Go `formatter.StdGroup`, first value of the `ImportGroup` enumeration
(`StdGroup ImportGroup = iota`) declared alongside the `Import` struct in the
formatter source. -/
def StdGroup : Nat := 0

/-- Go `formatter.ThirdPartyGroup` (second `iota` value). -/
def ThirdPartyGroup : Nat := 1

/-- Go `formatter.ProjectGroup` (third `iota` value). -/
def ProjectGroup : Nat := 2

/-- Go `formatter.OrgGroupBase = 100`: organization groups are dynamically
assigned the identifiers `OrgGroupBase + i` for the i-th configured prefix. -/
def OrgGroupBase : Nat := 100

/-- One import record, mirroring the formatter's `Import` struct
(fields `Name`, `Path`, `Comment`, `Group`, `OrgIndex`, `ProjectName`).
Default field values are the Go zero values used by `extractImports`. -/
structure Import where
  Name : GoStr := []
  Path : GoStr := []
  Comment : GoStr := []
  Group : Nat := 0
  OrgIndex : Int := 0
  ProjectName : GoStr := []
deriving DecidableEq, Repr

/-- Modelled from the spec: `pkg/std` ships a fixed, enumerable, exact-match
table of standard-library package paths (generated file not under src/).  A
representative finite table; every claim below is parameterised over
membership in it. -/
def StandardPackages : List GoStr :=
  [str "bufio", str "bytes", str "context", str "crypto/rand", str "crypto/tls",
   str "encoding/json", str "errors", str "fmt", str "go/ast", str "io",
   str "log", str "net/http", str "os", str "path/filepath", str "sort",
   str "strings", str "time"]

/-- Go `std.IsStandardPackage`: exact-match membership in the table. -/
def IsStandardPackage (p : GoStr) : Bool := StandardPackages.contains p

/-- Go `formatter.isStdImport`. -/
def isStdImport (p : GoStr) : Bool := IsStandardPackage p

/-- First-match scan of the configured organization prefixes, as performed by
the loops in `classifyImport` and `getOrgInfo`: returns the index and the
prefix of the first configured organization whose characters start the path. -/
def findOrg (orgs : List GoStr) (p : GoStr) : Option (Nat × GoStr) :=
  match orgs with
  | [] => none
  | o :: rest =>
    if hasPfx p o then some (0, o)
    else
      match findOrg rest p with
      | some (i, org) => some (i + 1, org)
      | none => none

/-- Go `formatter.classifyImport`: standard library first, then the current
project by plain `strings.HasPrefix`, then the organization prefixes in
configured order (first match wins), else third-party. -/
def classifyImport (orgs : List GoStr) (importPath projectModule : GoStr) : Nat :=
  if isStdImport importPath then StdGroup
  else if hasPfx importPath projectModule then ProjectGroup
  else
    match findOrg orgs importPath with
    | some (i, _) => OrgGroupBase + i
    | none => ThirdPartyGroup

/-- Go `formatter.getOrgInfo`: first matching organization prefix, then the
sub-project name is the first `/`-separated segment of the remainder after
stripping the prefix and one leading separator. -/
def getOrgInfo (orgs : List GoStr) (importPath : GoStr) : Int × GoStr :=
  match findOrg orgs importPath with
  | some (i, org) =>
    let remaining := trimPfx (trimPfx importPath org) (str "/")
    ((i : Int), (goSplit '/' remaining).headD [])
  | none => (-1, [])

/-- One parsed `ast.ImportSpec`, as read by `extractImports`:
alias name (empty when absent), path, trailing comment text. -/
structure ParsedImport where
  name : GoStr := []
  path : GoStr := []
  comment : GoStr := []
deriving DecidableEq, Repr

/-- Fresh `Import` record built by `extractImports` from a parsed spec;
the remaining fields keep their Go zero values. -/
def toImport (s : ParsedImport) : Import :=
  { Name := s.name, Path := s.path, Comment := s.comment }

/-- Worker of `extractImports`; `seen` models the `seen` path set. -/
def extractImportsAux (seen : List GoStr) : List ParsedImport → List Import
  | [] => []
  | s :: rest =>
    if s.path ∈ seen then extractImportsAux seen rest
    else toImport s :: extractImportsAux (s.path :: seen) rest

/-- Go `formatter.extractImports`: walks the parsed import list in order,
dropping every repetition of an already-seen path. -/
def extractImports (specs : List ParsedImport) : List Import :=
  extractImportsAux [] specs

/-- Non-strict counterpart of the `less` closure used by `sortImportsInGroup`
for the non-organization groups: compare by path.  `sort.Slice` with a strict
`less` produces exactly the permutations sorted under this relation. -/
def rPath (a b : Import) : Prop := a.Path ≤ b.Path

/-- Non-strict counterpart of the `less` closure used by `sortImportsInGroup`
for organization groups: project name first, then path. -/
def rOrg (a b : Import) : Prop :=
  if a.ProjectName = b.ProjectName then a.Path ≤ b.Path
  else a.ProjectName < b.ProjectName

/-- Sort key used by `addOrgImports` (its `OrgProject` struct). -/
def orgKey (i : Import) : Int × GoStr := (i.OrgIndex, i.ProjectName)

/-- Non-strict counterpart of the `less` closure `addOrgImports` sorts its
`OrgProject` keys with: organization index first, then project name. -/
def rKey (a b : Int × GoStr) : Prop :=
  if a.1 = b.1 then a.2 ≤ b.2 else a.1 < b.1

instance : DecidableRel rPath := fun a b => by unfold rPath; infer_instance

instance : DecidableRel rOrg := fun a b => by unfold rOrg; infer_instance

instance : DecidableRel rKey := fun a b => by unfold rKey; infer_instance

/-- Go `formatter.sortImportsInGroup` (`sort.Slice`, modelled as insertion
sort under the matching non-strict relation). -/
def sortImportsInGroup (group : Nat) (imports : List Import) : List Import :=
  if OrgGroupBase ≤ group then List.insertionSort rOrg imports
  else List.insertionSort rPath imports

/-- Record update performed by the classification loop of
`formatter.groupImports`: assign `Group`, and for organization imports also
`OrgIndex` and `ProjectName`. -/
def classifyRecord (orgs : List GoStr) (pm : GoStr) (imp : Import) : Import :=
  let g := classifyImport orgs imp.Path pm
  if OrgGroupBase ≤ g then
    { imp with Group := g, OrgIndex := (getOrgInfo orgs imp.Path).1,
               ProjectName := (getOrgInfo orgs imp.Path).2 }
  else { imp with Group := g }

/-- Go `formatter.groupImports` as the bucket map it builds: classify each
record in order, collect the bucket of a group in input order, sort it. -/
def groupImports (orgs : List GoStr) (pm : GoStr) (imports : List Import)
    (g : Nat) : List Import :=
  sortImportsInGroup g
    ((imports.map (classifyRecord orgs pm)).filter (fun i => i.Group = g))

/-- Go `formatter.addOrgImports` as a list transformation: bucket by
`(OrgIndex, ProjectName)`, sort the distinct keys, emit each key's bucket in
input order.  Go's map iteration order is irrelevant because the keys are
distinct and get sorted. -/
def addOrgImports (imports : List Import) : List Import :=
  let keys := List.insertionSort rKey (imports.map orgKey).dedup
  keys.flatMap (fun k => imports.filter (fun i => orgKey i = k))

/-- Top-level declarations of a Go file, as far as the re-emitter looks at
them: an import declaration carrying its specs, or any other declaration
(opaque source text). -/
inductive Decl where
  | imp (specs : List Import)
  | other (text : GoStr)
deriving DecidableEq, Repr

/-- Discriminates import declarations (`genDecl.Tok == token.IMPORT`). -/
def Decl.isImp : Decl → Bool
  | .imp _ => true
  | .other _ => false

/-- Go `formatter.hasOrgImports`. -/
def hasOrgImports (orgs : List GoStr) (gi : Nat → List Import) : Bool :=
  (List.range orgs.length).any (fun i => !(gi (OrgGroupBase + i)).isEmpty)

/-- Organization portion of the synthesized import declaration: the
configured organizations in order, each through `addOrgImports`.  An empty
bucket contributes nothing. -/
def orgSpecs (orgs : List GoStr) (gi : Nat → List Import) : List Import :=
  (List.range orgs.length).flatMap (fun i => addOrgImports (gi (OrgGroupBase + i)))

/-- Entry list of the import declaration synthesized by
`formatter.replaceImports`: standard, third-party, organizations in
configured order, project. -/
def importSpecs (orgs : List GoStr) (gi : Nat → List Import) : List Import :=
  gi StdGroup ++ gi ThirdPartyGroup ++ orgSpecs orgs gi ++ gi ProjectGroup

/-- Go `formatter.replaceImports`: drop every import declaration, and when
any group is inhabited prepend one synthesized import declaration. -/
def replaceImports (orgs : List GoStr) (decls : List Decl)
    (gi : Nat → List Import) : List Decl :=
  let rest := decls.filter (fun d => !d.isImp)
  if !(gi StdGroup).isEmpty || !(gi ThirdPartyGroup).isEmpty ||
     !(gi ProjectGroup).isEmpty || hasOrgImports orgs gi
  then .imp (importSpecs orgs gi) :: rest
  else rest

/-- Quotes an import path as Go source (`fmt.Sprintf "%s"` with quotes). -/
def quoteStr (p : GoStr) : GoStr := '"' :: (p ++ ['"'])

/-- Go `formatter.formatImportSpec` composed with the spec construction of
`formatter.addGroupImports`: the alias is emitted when non-empty, the path
always (quoted), the comment when its trimmed text is non-empty, joined by
single spaces. -/
def formatImportSpec (imp : Import) : GoStr :=
  List.intercalate [' ']
    ((if imp.Name = [] then [] else [imp.Name]) ++ [quoteStr imp.Path] ++
     (if trimSpace imp.Comment = [] then []
      else [str "// " ++ trimSpace imp.Comment]))

/-- Go `formatter.shouldAddSpacingBetweenImports`: re-classifies the two
adjacent entries' paths and compares groups, then sub-project names for
organization entries. -/
def shouldAddSpacingBetweenImports (orgs : List GoStr) (pm : GoStr)
    (specs : List Import) (i : Nat) : Bool :=
  if i = 0 then false
  else
    match specs[i]?, specs[i-1]? with
    | some cur, some prev =>
      let cg := classifyImport orgs cur.Path pm
      let pg := classifyImport orgs prev.Path pm
      if cg ≠ pg then true
      else if OrgGroupBase ≤ cg then
        let cop := (getOrgInfo orgs cur.Path).2
        let pop := (getOrgInfo orgs prev.Path).2
        decide (cop ≠ pop) && decide (pop ≠ []) && decide (cop ≠ [])
      else false
    | _, _ => false

/-- Entry lines of the rendered import block, with the blank line the
`formatFile` loop inserts before entry `i` when
`i > 0 && shouldAddSpacingBetweenImports(specs, i)`. -/
def importEntryLines (orgs : List GoStr) (pm : GoStr)
    (specs : List Import) : List GoStr :=
  (List.range specs.length).flatMap (fun i =>
    match specs[i]? with
    | some s =>
      (if decide (0 < i) && shouldAddSpacingBetweenImports orgs pm specs i
       then [([] : GoStr)] else []) ++ ['\t' :: formatImportSpec s]
    | none => [])

/-- Lines `formatFile` appends right after the package-clause line: one blank
line, then — when there are any import specs — the parenthesized import
block followed by another blank line. -/
def importBlock (orgs : List GoStr) (pm : GoStr) (specs : List Import) :
    List GoStr :=
  [[]] ++
  (if specs.isEmpty then []
   else [str "import ("] ++ importEntryLines orgs pm specs ++ [str ")", []])

/-- Package-clause test of the `formatFile` loop:
`strings.HasPrefix(strings.TrimSpace(line), "package ")`. -/
def isPackageLine (l : GoStr) : Bool := hasPfx (trimSpace l) (str "package ")

/-- Line traversal of `formatFile`: copy every line, and directly after the
first package-clause line splice in the given block. -/
def insertAfterPackage (block : List GoStr) : List GoStr → List GoStr
  | [] => []
  | l :: rest =>
    if isPackageLine l then l :: (block ++ rest)
    else l :: insertAfterPackage block rest

/-- Go `formatter.formatFile` at the line level: `printed` is the pretty-print
of the file with its import declarations removed; the rendered import block
is inserted after the package clause. -/
def formatFileLines (orgs : List GoStr) (pm : GoStr) (specs : List Import)
    (printed : List GoStr) : List GoStr :=
  insertAfterPackage (importBlock orgs pm specs) printed

/-- Structural model of a parseable Go source file, as far as
`ProcessFileWithOutput` inspects it: the raw source lines, the lines the
pretty-printer emits before the package clause (header comments), the package
name, the parsed import specs in source order, and the lines the
pretty-printer emits after the package clause once every import declaration
is removed (the non-import declarations). -/
structure FileModel where
  srcLines : List GoStr
  pre : List GoStr
  pkgName : GoStr
  imports : List ParsedImport
  restLines : List GoStr
deriving DecidableEq, Repr

/-- Modelled from the spec: the external `print` capability (`format.Node`),
assumed to render the import-free file as its header lines, the package
clause, and the unchanged non-import declarations. -/
def printedNoImports (f : FileModel) : List GoStr :=
  f.pre ++ (str "package " ++ f.pkgName) :: f.restLines

/-- Import specs of the declaration synthesized by the
extract → group → replace pipeline of `ProcessFileWithOutput`. -/
def pipelineSpecs (orgs : List GoStr) (pm : GoStr)
    (specs : List ParsedImport) : List Import :=
  importSpecs orgs (groupImports orgs pm (extractImports specs))

/-- Output bytes (as lines) of `ProcessFileWithOutput`: a file without
any parsed import entries is returned untouched; otherwise the rebuilt file
is rendered by `formatFile`.  The project module is the same resolved value everywhere in
one invocation (`getCurrentProject` is deterministic per file). -/
def transformOutput (orgs : List GoStr) (pm : GoStr) (f : FileModel) :
    List GoStr :=
  if f.imports.isEmpty then f.srcLines
  else formatFileLines orgs pm (pipelineSpecs orgs pm f.imports)
         (printedNoImports f)

/-- Whether `ProcessFileWithOutput` writes the file in in-place mode: never
for a file without imports (early return), otherwise exactly when in-place
mode is on. -/
def processWrites (inPlace : Bool) (f : FileModel) : Bool :=
  if f.imports.isEmpty then false else inPlace

/-- Comment text the parser recovers from a rendered import entry: the
emitted comment is `// ` followed by the trimmed stored text, and
`ast.CommentGroup.Text` returns it with a trailing newline; entries whose
stored comment trims to nothing are emitted without a comment. -/
def normComment (c : GoStr) : GoStr :=
  if trimSpace c = [] then [] else trimSpace c ++ ['\n']

/-- Modelled from the spec: the external `parse` capability applied to one
rendered import entry recovers the alias, the path, and the normalized
comment text. -/
def reparseImport (i : Import) : ParsedImport :=
  { name := i.Name, path := i.Path, comment := normComment i.Comment }

/-- Modelled from the spec: the external `parse` capability applied to the
transform's output: same header, package name and non-import declarations;
the import specs are the emitted entries as the parser recovers them. -/
def parseOfOutput (orgs : List GoStr) (pm : GoStr) (f : FileModel) :
    FileModel :=
  if f.imports.isEmpty then f
  else
    { srcLines := transformOutput orgs pm f
      pre := f.pre
      pkgName := f.pkgName
      imports := (pipelineSpecs orgs pm f.imports).map reparseImport
      restLines := f.restLines }

/-- Success/failure counters of `formatter.ProcessFiles`: every path is
processed (no early exit), successes and failures are counted. -/
def processFilesCounts (run : GoStr → Bool) (paths : List GoStr) : Nat × Nat :=
  paths.foldl
    (fun acc p => if run p then (acc.1 + 1, acc.2) else (acc.1, acc.2 + 1))
    (0, 0)

/-- Whether `formatter.ProcessFiles` returns an error: exactly when the
failure counter is positive. -/
def processFilesHasError (run : GoStr → Bool) (paths : List GoStr) : Bool :=
  decide (0 < (processFilesCounts run paths).2)

/-- Claim-side notion from the spec: `pre` is a path-segment-respecting
prefix of `p` (the path equals the prefix, or the character right after the
prefix is a separator). -/
def segRespecting (pre p : GoStr) : Bool :=
  hasPfx p pre && (decide (p = pre) || decide (p[pre.length]? = some '/'))

/-- Claim-side notion from the spec: strip at most one leading separator. -/
def dropOneSep (l : GoStr) : GoStr :=
  match l with
  | c :: rest => if c = '/' then rest else c :: rest
  | [] => []

instance : IsTrans Import rPath :=
  ⟨fun _ _ _ hab hbc => le_trans hab hbc⟩

instance : IsTotal Import rPath :=
  ⟨fun a b => le_total a.Path b.Path⟩

instance : IsTrans Import rOrg := by
  refine ⟨fun a b c hab hbc => ?_⟩
  unfold rOrg at *
  by_cases h1 : a.ProjectName = b.ProjectName <;>
    by_cases h2 : b.ProjectName = c.ProjectName
  · rw [if_pos h1] at hab; rw [if_pos h2] at hbc
    rw [if_pos (h1.trans h2)]
    exact le_trans hab hbc
  · rw [if_pos h1] at hab; rw [if_neg h2] at hbc
    rw [if_neg (h1 ▸ h2)]
    exact h1 ▸ hbc
  · rw [if_neg h1] at hab; rw [if_pos h2] at hbc
    rw [if_neg (h2 ▸ h1)]
    exact h2 ▸ hab
  · rw [if_neg h1] at hab; rw [if_neg h2] at hbc
    have := lt_trans hab hbc
    rw [if_neg (ne_of_lt this)]
    exact this

instance : IsTotal Import rOrg := by
  refine ⟨fun a b => ?_⟩
  unfold rOrg
  by_cases h : a.ProjectName = b.ProjectName
  · rw [if_pos h, if_pos h.symm]
    exact le_total a.Path b.Path
  · rcases lt_or_gt_of_ne h with hlt | hgt
    · exact Or.inl (by rw [if_neg h]; exact hlt)
    · exact Or.inr (by rw [if_neg (Ne.symm h)]; exact hgt)

instance : IsTrans (Int × GoStr) rKey := by
  refine ⟨fun a b c hab hbc => ?_⟩
  unfold rKey at *
  by_cases h1 : a.1 = b.1 <;> by_cases h2 : b.1 = c.1
  · rw [if_pos h1] at hab; rw [if_pos h2] at hbc
    rw [if_pos (h1.trans h2)]
    exact le_trans hab hbc
  · rw [if_pos h1] at hab; rw [if_neg h2] at hbc
    rw [if_neg (h1 ▸ h2)]
    exact h1 ▸ hbc
  · rw [if_neg h1] at hab; rw [if_pos h2] at hbc
    rw [if_neg (h2 ▸ h1)]
    exact h2 ▸ hab
  · rw [if_neg h1] at hab; rw [if_neg h2] at hbc
    have := lt_trans hab hbc
    rw [if_neg (ne_of_lt this)]
    exact this

instance : IsTotal (Int × GoStr) rKey := by
  refine ⟨fun a b => ?_⟩
  unfold rKey
  by_cases h : a.1 = b.1
  · rw [if_pos h, if_pos h.symm]
    exact le_total a.2 b.2
  · rcases lt_or_gt_of_ne h with hlt | hgt
    · exact Or.inl (by rw [if_neg h]; exact hlt)
    · exact Or.inr (by rw [if_neg (Ne.symm h)]; exact hgt)

/-- Emission-order key list: the group identifiers in the order
`replaceImports` emits them. -/
def groupOrder (orgs : List GoStr) : List Nat :=
  StdGroup :: ThirdPartyGroup ::
    ((List.range orgs.length).map (fun i => OrgGroupBase + i) ++ [ProjectGroup])

/-- Record counterpart of re-parsing an emitted entry: only the comment text
is normalized, every other field survives the round trip unchanged. -/
def normImport (r : Import) : Import := { r with Comment := normComment r.Comment }

/-- Concrete import-free file used by the C8 witness. -/
def demoEmptyFile : FileModel where
  srcLines := [str "package main"]
  pre := []
  pkgName := str "main"
  imports := []
  restLines := []

/-- Concrete parsed import list used by the C4 witness: one entry of every
group kind, out of order. -/
def demoSpecs : List ParsedImport :=
  [{name := [], path := str "github.com/external/lib", comment := []},
   {name := [], path := str "fmt", comment := []},
   {name := [], path := str "github.com/test/project/internal", comment := []},
   {name := [], path := str "strings", comment := []},
   {name := [], path := str "github.com/myorg/project1", comment := []}]

theorem dropWhile_idem {α : Type} (p : α → Bool) (l : List α) :
    (l.dropWhile p).dropWhile p = l.dropWhile p := by
  induction l with
  | nil => rfl
  | cons a t ih =>
    by_cases h : p a = true
    · simp [List.dropWhile_cons, h, ih]
    · simp [List.dropWhile_cons, h]

theorem dropWhile_head_false {α : Type} (p : α → Bool) :
    ∀ (l : List α) {h : α} {t : List α}, l.dropWhile p = h :: t → p h = false := by
  intro l
  induction l with
  | nil => intro h t hyp; simp [List.dropWhile] at hyp
  | cons a l ih =>
    intro h t hyp
    by_cases ha : p a = true
    · rw [List.dropWhile_cons, if_pos ha] at hyp; exact ih hyp
    · rw [List.dropWhile_cons, if_neg ha, List.cons.injEq] at hyp
      obtain ⟨rfl, -⟩ := hyp
      simpa using ha

theorem trimLeft_decomp (c : GoStr) : ∃ w, trimLeft c = trimSpace c ++ w := by
  refine ⟨((trimLeft c).reverse.takeWhile isSpc).reverse, ?_⟩
  unfold trimSpace trimRight
  calc trimLeft c = (trimLeft c).reverse.reverse := (List.reverse_reverse _).symm
    _ = ((trimLeft c).reverse.takeWhile isSpc ++
          (trimLeft c).reverse.dropWhile isSpc).reverse := by
        rw [List.takeWhile_append_dropWhile]
    _ = ((trimLeft c).reverse.dropWhile isSpc).reverse ++
          ((trimLeft c).reverse.takeWhile isSpc).reverse := by
        rw [List.reverse_append]

theorem trimSpace_head_false (c : GoStr) {h : Char} {t : GoStr}
    (hc : trimSpace c = h :: t) : isSpc h = false := by
  obtain ⟨w, hw⟩ := trimLeft_decomp c
  rw [hc] at hw
  exact dropWhile_head_false isSpc c (by simpa [trimLeft] using hw)

theorem trimSpace_rev_fix (c : GoStr) :
    (trimSpace c).reverse.dropWhile isSpc = (trimSpace c).reverse := by
  unfold trimSpace trimRight
  rw [List.reverse_reverse]
  exact dropWhile_idem isSpc (trimLeft c).reverse

theorem trimSpace_append_newline (c : GoStr) :
    trimSpace (trimSpace c ++ ['\n']) = trimSpace c := by
  rcases hc : trimSpace c with _ | ⟨h, t⟩
  · decide
  · have hh : isSpc h = false := trimSpace_head_false c hc
    show trimRight (trimLeft ((h :: t) ++ ['\n'])) = h :: t
    have h1 : trimLeft ((h :: t) ++ ['\n']) = (h :: t) ++ ['\n'] := by
      simp only [trimLeft, List.cons_append, List.dropWhile_cons, hh]
      simp
    rw [h1]
    unfold trimRight
    have h2 : ((h :: t) ++ ['\n']).reverse = '\n' :: (h :: t).reverse := by
      simp
    rw [h2, List.dropWhile_cons]
    have h3 : isSpc '\n' = true := by decide
    rw [if_pos h3, ← hc, trimSpace_rev_fix]
    simp

theorem trimSpace_nil : trimSpace [] = [] := rfl

theorem findOrg_spec :
    ∀ (orgs : List GoStr) (p : GoStr) {i : Nat} {org : GoStr},
      findOrg orgs p = some (i, org) →
      i < orgs.length ∧ orgs[i]? = some org ∧ hasPfx p org = true ∧
        ∀ j, j < i → ∀ o, orgs[j]? = some o → hasPfx p o = false := by
  intro orgs
  induction orgs with
  | nil => intro p i org h; simp [findOrg] at h
  | cons o rest ih =>
    intro p i org h
    rw [findOrg] at h
    by_cases ho : hasPfx p o = true
    · rw [if_pos ho] at h
      simp only [Option.some.injEq, Prod.mk.injEq] at h
      obtain ⟨rfl, rfl⟩ := h
      refine ⟨by simp, by simp, ho, ?_⟩
      intro j hj; omega
    · rw [if_neg ho] at h
      cases hrec : findOrg rest p with
      | none => rw [hrec] at h; simp at h
      | some io =>
        obtain ⟨i', org'⟩ := io
        rw [hrec] at h
        simp only [Option.some.injEq, Prod.mk.injEq] at h
        obtain ⟨rfl, rfl⟩ := h
        obtain ⟨hlen, hget, hpfx, hfirst⟩ := ih p hrec
        refine ⟨by simpa using hlen, by simpa using hget, hpfx, ?_⟩
        intro j hj o' hj'
        cases j with
        | zero =>
          simp only [List.getElem?_cons_zero, Option.some.injEq] at hj'
          subst hj'
          simpa using ho
        | succ j' =>
          simp only [List.getElem?_cons_succ] at hj'
          exact hfirst j' (by omega) o' hj'

theorem findOrg_first :
    ∀ (orgs : List GoStr) (p : GoStr) (i : Nat) (org : GoStr),
      orgs[i]? = some org → hasPfx p org = true →
      (∀ j, j < i → ∀ o, orgs[j]? = some o → hasPfx p o = false) →
      findOrg orgs p = some (i, org) := by
  intro orgs
  induction orgs with
  | nil => intro p i org hget; simp at hget
  | cons o rest ih =>
    intro p i org hget hpfx hfirst
    cases i with
    | zero =>
      simp only [List.getElem?_cons_zero, Option.some.injEq] at hget
      subst hget
      rw [findOrg, if_pos hpfx]
    | succ i' =>
      have ho : hasPfx p o = false := hfirst 0 (by omega) o (by simp)
      rw [findOrg, if_neg (by simp [ho])]
      have hrec : findOrg rest p = some (i', org) := by
        apply ih p i' org (by simpa using hget) hpfx
        intro j hj o' hj'
        exact hfirst (j + 1) (by omega) o' (by simpa using hj')
      rw [hrec]

theorem classify_org_agree (orgs : List GoStr) (pm p : GoStr) (i : Nat)
    (h : classifyImport orgs p pm = OrgGroupBase + i) :
    ∃ org, findOrg orgs p = some (i, org) := by
  unfold classifyImport at h
  by_cases h1 : isStdImport p = true
  · rw [if_pos h1] at h
    exact absurd h (by unfold StdGroup OrgGroupBase; omega)
  · rw [if_neg h1] at h
    by_cases h2 : hasPfx p pm = true
    · rw [if_pos h2] at h
      exact absurd h (by unfold ProjectGroup OrgGroupBase; omega)
    · rw [if_neg h2] at h
      cases hf : findOrg orgs p with
      | none =>
        rw [hf] at h
        have h' : ThirdPartyGroup = OrgGroupBase + i := h
        exact absurd h' (by unfold ThirdPartyGroup OrgGroupBase; omega)
      | some io =>
        obtain ⟨j, org⟩ := io
        rw [hf] at h
        have h' : OrgGroupBase + j = OrgGroupBase + i := h
        have : j = i := by omega
        subst this
        exact ⟨org, rfl⟩

theorem getOrgInfo_fst_of_classify (orgs : List GoStr) (pm p : GoStr) (i : Nat)
    (h : classifyImport orgs p pm = OrgGroupBase + i) :
    (getOrgInfo orgs p).1 = (i : Int) := by
  obtain ⟨org, hf⟩ := classify_org_agree orgs pm p i h
  unfold getOrgInfo
  rw [hf]

theorem classify_cases (orgs : List GoStr) (pm p : GoStr) :
    classifyImport orgs p pm = StdGroup ∨
    classifyImport orgs p pm = ThirdPartyGroup ∨
    classifyImport orgs p pm = ProjectGroup ∨
    ∃ i, i < orgs.length ∧ classifyImport orgs p pm = OrgGroupBase + i := by
  unfold classifyImport
  by_cases h1 : isStdImport p = true
  · rw [if_pos h1]; exact Or.inl rfl
  · rw [if_neg h1]
    by_cases h2 : hasPfx p pm = true
    · rw [if_pos h2]; exact Or.inr (Or.inr (Or.inl rfl))
    · rw [if_neg h2]
      cases hf : findOrg orgs p with
      | none => exact Or.inr (Or.inl rfl)
      | some io =>
        obtain ⟨i, org⟩ := io
        exact Or.inr (Or.inr (Or.inr ⟨i, (findOrg_spec orgs p hf).1, rfl⟩))

theorem rOrg_pn_le {a b : Import} (h : rOrg a b) :
    a.ProjectName ≤ b.ProjectName := by
  unfold rOrg at h
  by_cases hpn : a.ProjectName = b.ProjectName
  · exact le_of_eq hpn
  · rw [if_neg hpn] at h; exact le_of_lt h

theorem extractAux_nodup_and_fresh :
    ∀ (l : List ParsedImport) (seen : List GoStr),
      ((extractImportsAux seen l).map Import.Path).Nodup ∧
      ∀ r ∈ extractImportsAux seen l, r.Path ∉ seen := by
  intro l
  induction l with
  | nil => intro seen; simp [extractImportsAux]
  | cons s rest ih =>
    intro seen
    by_cases hs : s.path ∈ seen
    · rw [extractImportsAux, if_pos hs]
      exact ih seen
    · rw [extractImportsAux, if_neg hs]
      obtain ⟨hnd, hfresh⟩ := ih (s.path :: seen)
      constructor
      · simp only [List.map_cons, List.nodup_cons]
        refine ⟨?_, hnd⟩
        intro hmem
        obtain ⟨r, hr, hrp⟩ := List.mem_map.mp hmem
        have := hfresh r hr
        rw [hrp] at this
        exact this (by simp [toImport])
      · intro r hr
        rcases List.mem_cons.mp hr with rfl | hr'
        · simpa [toImport] using hs
        · have := hfresh r hr'
          intro hmem
          exact this (List.mem_cons_of_mem _ hmem)

theorem extractAux_first :
    ∀ (l : List ParsedImport) (seen : List GoStr) (r : Import),
      r ∈ extractImportsAux seen l →
      r.Path ∉ seen ∧
      ∃ before s after, l = before ++ s :: after ∧ r = toImport s ∧
        ∀ t ∈ before, t.path ≠ r.Path := by
  intro l
  induction l with
  | nil => intro seen r hr; simp [extractImportsAux] at hr
  | cons s rest ih =>
    intro seen r hr
    by_cases hs : s.path ∈ seen
    · rw [extractImportsAux, if_pos hs] at hr
      obtain ⟨hfresh, before, s', after, hsplit, hrs, hbefore⟩ := ih seen r hr
      refine ⟨hfresh, s :: before, s', after, by rw [hsplit]; rfl, hrs, ?_⟩
      intro t ht
      rcases List.mem_cons.mp ht with rfl | ht'
      · intro hc; rw [← hc] at hfresh; exact hfresh hs
      · exact hbefore t ht'
    · rw [extractImportsAux, if_neg hs] at hr
      rcases List.mem_cons.mp hr with rfl | hr'
      · exact ⟨by simpa [toImport] using hs, [], s, rest, rfl, rfl, by simp⟩
      · obtain ⟨hfresh, before, s', after, hsplit, hrs, hbefore⟩ :=
          ih (s.path :: seen) r hr'
        have hne : s.path ≠ r.Path := fun hc => hfresh (by rw [← hc]; simp)
        refine ⟨fun hc => hfresh (List.mem_cons_of_mem _ hc),
                s :: before, s', after, by rw [hsplit]; rfl, hrs, ?_⟩
        intro t ht
        rcases List.mem_cons.mp ht with rfl | ht'
        · exact hne
        · exact hbefore t ht'

theorem extractAux_path_mem :
    ∀ (l : List ParsedImport) (seen : List GoStr) (p : GoStr),
      (∃ r ∈ extractImportsAux seen l, r.Path = p) ↔
      (p ∉ seen ∧ ∃ s ∈ l, s.path = p) := by
  intro l
  induction l with
  | nil => intro seen p; simp [extractImportsAux]
  | cons s rest ih =>
    intro seen p
    by_cases hs : s.path ∈ seen
    · rw [extractImportsAux, if_pos hs, ih seen p]
      constructor
      · rintro ⟨hp, hex⟩
        exact ⟨hp, by simpa using Or.inr (by simpa using hex)⟩
      · rintro ⟨hp, hex⟩
        refine ⟨hp, ?_⟩
        rcases (by simpa using hex : s.path = p ∨ ∃ x ∈ rest, x.path = p) with
          h | h
        · exact absurd (h ▸ hs) hp
        · simpa using h
    · rw [extractImportsAux, if_neg hs]
      constructor
      · rintro ⟨r, hr, hrp⟩
        rcases List.mem_cons.mp hr with rfl | hr'
        · exact ⟨by simpa [toImport] using hrp ▸ hs,
                 by exact ⟨s, by simp, by simpa [toImport] using hrp⟩⟩
        · obtain ⟨hp, s', hs', hsp⟩ := (ih (s.path :: seen) p).mp ⟨r, hr', hrp⟩
          exact ⟨fun hc => hp (List.mem_cons_of_mem _ hc),
                 ⟨s', List.mem_cons_of_mem _ hs', hsp⟩⟩
      · rintro ⟨hp, s', hs', hsp⟩
        rcases List.mem_cons.mp hs' with rfl | hmem
        · exact ⟨toImport s', by simp, by simp [toImport, hsp]⟩
        · by_cases hps : p = s.path
          · exact ⟨toImport s, by simp, by simp [toImport, hps]⟩
          · obtain ⟨r, hr, hrp⟩ := (ih (s.path :: seen) p).mpr
              ⟨by simp [hps, hp], ⟨s', hmem, hsp⟩⟩
            exact ⟨r, List.mem_cons_of_mem _ hr, hrp⟩

theorem extractAux_of_nodup :
    ∀ (l : List ParsedImport) (seen : List GoStr),
      (l.map ParsedImport.path).Nodup → (∀ s ∈ l, s.path ∉ seen) →
      extractImportsAux seen l = l.map toImport := by
  intro l
  induction l with
  | nil => intro seen _ _; rfl
  | cons s rest ih =>
    intro seen hnd hfresh
    rw [List.map_cons, List.nodup_cons] at hnd
    rw [extractImportsAux, if_neg (hfresh s (by simp))]
    simp only [List.map_cons, List.cons.injEq, true_and]
    apply ih
    · exact hnd.2
    · intro t ht
      simp only [List.mem_cons, not_or]
      refine ⟨?_, hfresh t (List.mem_cons_of_mem _ ht)⟩
      intro hc
      exact hnd.1 (by rw [← hc]; exact List.mem_map_of_mem _ ht)

theorem filter_append_filter_not {α : Type} (R : α → α → Prop)
    (p : α → Bool) :
    ∀ (l : List α), List.Pairwise R l →
      (∀ x ∈ l, ∀ y ∈ l, R x y → p y = true → p x = true) →
      l.filter p ++ l.filter (fun a => !p a) = l := by
  intro l
  induction l with
  | nil => intro _ _; rfl
  | cons a t ih =>
    intro hpw hdc
    obtain ⟨ha, ht⟩ := List.pairwise_cons.mp hpw
    by_cases hpa : p a = true
    · rw [List.filter_cons_of_pos hpa, List.filter_cons_of_neg (by simp [hpa])]
      have := ih ht (fun x hx y hy hr hp =>
        hdc x (List.mem_cons_of_mem _ hx) y (List.mem_cons_of_mem _ hy) hr hp)
      simpa using this
    · have hnone : ∀ y ∈ t, p y = false := by
        intro y hy
        by_contra hc
        exact hpa (hdc a (by simp) y (List.mem_cons_of_mem _ hy) (ha y hy)
          (by simpa using hc))
      rw [List.filter_cons_of_neg hpa, List.filter_cons_of_pos (by simp [hpa])]
      rw [List.filter_eq_nil_iff.mpr (by intro y hy; simp [hnone y hy]),
          List.filter_eq_self.mpr (by intro y hy; simp [hnone y hy])]
      rfl

theorem flatMap_congr {α β : Type} {f g : α → List β} :
    ∀ (l : List α), (∀ a ∈ l, f a = g a) → l.flatMap f = l.flatMap g := by
  intro l
  induction l with
  | nil => intro _; rfl
  | cons a t ih =>
    intro h
    rw [List.flatMap_cons, List.flatMap_cons, h a (by simp),
        ih (fun x hx => h x (List.mem_cons_of_mem _ hx))]

theorem flatMap_filter_perm {α κ : Type} [DecidableEq κ] (key : α → κ) :
    ∀ (ks : List κ) (l : List α), ks.Nodup → (∀ x ∈ l, key x ∈ ks) →
      (ks.flatMap (fun k => l.filter (fun a => decide (key a = k)))).Perm l := by
  intro ks
  induction ks with
  | nil =>
    intro l _ hcov
    cases l with
    | nil => simp
    | cons x t => exact absurd (hcov x (by simp)) (by simp)
  | cons k ks' ih =>
    intro l hnd hcov
    have hkk : k ∉ ks' := (List.nodup_cons.mp hnd).1
    rw [List.flatMap_cons]
    have hsplit :
        ks'.flatMap (fun k' => l.filter (fun a => decide (key a = k'))) =
        ks'.flatMap (fun k' =>
          (l.filter (fun a => !decide (key a = k))).filter
            (fun a => decide (key a = k'))) := by
      apply flatMap_congr
      intro k' hk'
      rw [List.filter_filter]
      apply List.filter_congr
      intro x _
      by_cases h : key x = k'
      · have hne : ¬ k' = k := by
          intro hc
          exact hkk (hc ▸ hk')
        have : ¬ key x = k := fun hc => hne (h.symm.trans hc)
        simp [h, this, hne]
      · simp [h]
    rw [hsplit]
    have hperm :
        (ks'.flatMap (fun k' =>
          (l.filter (fun a => !decide (key a = k))).filter
            (fun a => decide (key a = k')))).Perm
          (l.filter (fun a => !decide (key a = k))) := by
      apply ih
      · exact (List.nodup_cons.mp hnd).2
      · intro x hx
        have hxl := List.mem_filter.mp hx
        have := hcov x hxl.1
        rcases List.mem_cons.mp this with hc | hc
        · exact absurd (by simpa using hxl.2) (by simp [hc])
        · exact hc
    exact List.Perm.trans (List.Perm.append_left _ hperm)
      (List.filter_append_perm _ l)

theorem flatMap_filter_sorted_eq (c : Int) :
    ∀ (ks : List (Int × GoStr)) (l : List Import), ks.Nodup →
      List.Pairwise rKey ks → (∀ x ∈ l, orgKey x ∈ ks) →
      List.Pairwise rOrg l → (∀ x ∈ l, x.OrgIndex = c) →
      ks.flatMap (fun k => l.filter (fun i => decide (orgKey i = k))) = l := by
  intro ks
  induction ks with
  | nil =>
    intro l _ _ hcov _ _
    cases l with
    | nil => rfl
    | cons x t => exact absurd (hcov x (by simp)) (by simp)
  | cons k ks' ih =>
    intro l hnd hks hcov hsort hidx
    have hkk : k ∉ ks' := (List.nodup_cons.mp hnd).1
    obtain ⟨hklex, hks'⟩ := List.pairwise_cons.mp hks
    rw [List.flatMap_cons]
    by_cases hk1 : k.1 = c
    · have hdc : ∀ x ∈ l, ∀ y ∈ l, rOrg x y →
          decide (orgKey y = k) = true → decide (orgKey x = k) = true := by
        intro x hx y _ hxy hyk
        have hyk' : orgKey y = k := of_decide_eq_true hyk
        rcases List.mem_cons.mp (hcov x hx) with hxk | hxk
        · simp [hxk]
        · have hx1 : (orgKey x).1 = k.1 := by
            show x.OrgIndex = k.1
            rw [hidx x hx, hk1]
          have hkle : rKey k (orgKey x) := hklex _ hxk
          unfold rKey at hkle
          rw [if_pos hx1.symm] at hkle
          have hpnle : x.ProjectName ≤ y.ProjectName := rOrg_pn_le hxy
          have hy2 : y.ProjectName = k.2 := by
            have : (orgKey y).2 = k.2 := by rw [hyk']
            simpa [orgKey] using this
          have : x.ProjectName = k.2 :=
            le_antisymm (hy2 ▸ hpnle) (by simpa [orgKey] using hkle)
          have hxk' : orgKey x = k := by
            have h1 : x.OrgIndex = k.1 := by simpa [orgKey] using hx1
            exact Prod.ext h1 (by simpa [orgKey] using this)
          simp [hxk']
      have hsplitQ := filter_append_filter_not rOrg
        (fun x => decide (orgKey x = k)) l hsort hdc
      have hcongr :
          ks'.flatMap (fun k' => l.filter (fun i => decide (orgKey i = k'))) =
          ks'.flatMap (fun k' =>
            (l.filter (fun a => !decide (orgKey a = k))).filter
              (fun i => decide (orgKey i = k'))) := by
        apply flatMap_congr
        intro k' hk'
        rw [List.filter_filter]
        apply List.filter_congr
        intro x _
        by_cases h : orgKey x = k'
        · have hne : ¬ k' = k := fun hc => hkk (hc ▸ hk')
          have : ¬ orgKey x = k := fun hc => hne (h.symm.trans hc)
          simp [h, this, hne]
        · simp [h]
      rw [hcongr]
      have hrec :
          ks'.flatMap (fun k' =>
            (l.filter (fun a => !decide (orgKey a = k))).filter
              (fun i => decide (orgKey i = k'))) =
          l.filter (fun a => !decide (orgKey a = k)) := by
        apply ih _ (List.nodup_cons.mp hnd).2 hks'
        · intro x hx
          have hxl := List.mem_filter.mp hx
          rcases List.mem_cons.mp (hcov x hxl.1) with hc | hc
          · exact absurd (by simpa using hxl.2) (by simp [hc])
          · exact hc
        · exact List.Pairwise.filter _ hsort
        · intro x hx
          exact hidx x (List.mem_filter.mp hx).1
      rw [hrec]
      exact hsplitQ
    · have hnil : l.filter (fun i => decide (orgKey i = k)) = [] := by
        apply List.filter_eq_nil_iff.mpr
        intro x hx
        simp only [decide_eq_true_eq]
        intro hc
        have : (orgKey x).1 = k.1 := by rw [hc]
        exact hk1 (by rw [← this]; exact (hidx x hx).symm ▸ rfl)
      rw [hnil, List.nil_append]
      apply ih _ (List.nodup_cons.mp hnd).2 hks'
      · intro x hx
        rcases List.mem_cons.mp (hcov x hx) with hc | hc
        · exact absurd (congrArg Prod.fst hc) (by
            show ¬ (orgKey x).1 = k.1
            rw [show (orgKey x).1 = x.OrgIndex from rfl, hidx x hx]
            exact fun hcc => hk1 hcc.symm)
        · exact hc
      · exact hsort
      · exact hidx

theorem addOrgImports_eq_self (c : Int) (l : List Import)
    (hidx : ∀ a ∈ l, a.OrgIndex = c) (hsort : List.Pairwise rOrg l) :
    addOrgImports l = l := by
  unfold addOrgImports
  apply flatMap_filter_sorted_eq c
  · exact (List.perm_insertionSort rKey _).symm.nodup (List.nodup_dedup _)
  · exact List.sorted_insertionSort rKey _
  · intro x hx
    exact ((List.perm_insertionSort rKey _).mem_iff).mpr
      (List.mem_dedup.mpr (List.mem_map_of_mem _ hx))
  · exact hsort
  · exact hidx

theorem classifyRecord_Path (orgs : List GoStr) (pm : GoStr) (i : Import) :
    (classifyRecord orgs pm i).Path = i.Path := by
  unfold classifyRecord
  by_cases h : OrgGroupBase ≤ classifyImport orgs i.Path pm <;> simp [h]

theorem classifyRecord_Name (orgs : List GoStr) (pm : GoStr) (i : Import) :
    (classifyRecord orgs pm i).Name = i.Name := by
  unfold classifyRecord
  by_cases h : OrgGroupBase ≤ classifyImport orgs i.Path pm <;> simp [h]

theorem classifyRecord_Comment (orgs : List GoStr) (pm : GoStr) (i : Import) :
    (classifyRecord orgs pm i).Comment = i.Comment := by
  unfold classifyRecord
  by_cases h : OrgGroupBase ≤ classifyImport orgs i.Path pm <;> simp [h]

theorem classifyRecord_Group (orgs : List GoStr) (pm : GoStr) (i : Import) :
    (classifyRecord orgs pm i).Group = classifyImport orgs i.Path pm := by
  unfold classifyRecord
  by_cases h : OrgGroupBase ≤ classifyImport orgs i.Path pm <;> simp [h]

theorem classifyRecord_org (orgs : List GoStr) (pm : GoStr) (i : Import)
    (h : OrgGroupBase ≤ classifyImport orgs i.Path pm) :
    (classifyRecord orgs pm i).OrgIndex = (getOrgInfo orgs i.Path).1 ∧
    (classifyRecord orgs pm i).ProjectName = (getOrgInfo orgs i.Path).2 := by
  unfold classifyRecord
  simp [h]

theorem classifyRecord_nonorg (orgs : List GoStr) (pm : GoStr) (i : Import)
    (h : ¬ OrgGroupBase ≤ classifyImport orgs i.Path pm) :
    (classifyRecord orgs pm i).OrgIndex = i.OrgIndex ∧
    (classifyRecord orgs pm i).ProjectName = i.ProjectName := by
  unfold classifyRecord
  simp [h]

theorem sortInGroup_perm (g : Nat) (l : List Import) :
    (sortImportsInGroup g l).Perm l := by
  unfold sortImportsInGroup
  by_cases h : OrgGroupBase ≤ g <;> simp [h, List.perm_insertionSort]

theorem sortInGroup_sorted_org (g : Nat) (l : List Import)
    (h : OrgGroupBase ≤ g) : List.Sorted rOrg (sortImportsInGroup g l) := by
  unfold sortImportsInGroup
  rw [if_pos h]
  exact List.sorted_insertionSort rOrg l

theorem sortInGroup_sorted_path (g : Nat) (l : List Import)
    (h : ¬ OrgGroupBase ≤ g) : List.Sorted rPath (sortImportsInGroup g l) := by
  unfold sortImportsInGroup
  rw [if_neg h]
  exact List.sorted_insertionSort rPath l

theorem sortInGroup_eq_org (g : Nat) (l : List Import)
    (h : OrgGroupBase ≤ g) (hl : List.Sorted rOrg l) :
    sortImportsInGroup g l = l := by
  unfold sortImportsInGroup
  rw [if_pos h]
  exact hl.insertionSort_eq

theorem sortInGroup_eq_path (g : Nat) (l : List Import)
    (h : ¬ OrgGroupBase ≤ g) (hl : List.Sorted rPath l) :
    sortImportsInGroup g l = l := by
  unfold sortImportsInGroup
  rw [if_neg h]
  exact hl.insertionSort_eq

theorem groupImports_perm (orgs : List GoStr) (pm : GoStr)
    (imports : List Import) (g : Nat) :
    (groupImports orgs pm imports g).Perm
      ((imports.map (classifyRecord orgs pm)).filter
        (fun i => decide (i.Group = g))) := by
  unfold groupImports
  exact sortInGroup_perm g _

theorem groupImports_mem (orgs : List GoStr) (pm : GoStr)
    (imports : List Import) (g : Nat) (r : Import)
    (hr : r ∈ groupImports orgs pm imports g) :
    r ∈ imports.map (classifyRecord orgs pm) ∧ r.Group = g := by
  have := (groupImports_perm orgs pm imports g).mem_iff.mp hr
  have hm := List.mem_filter.mp this
  exact ⟨hm.1, of_decide_eq_true hm.2⟩

theorem extract_default (specs : List ParsedImport) (r : Import)
    (hr : r ∈ extractImports specs) :
    r.Group = 0 ∧ r.OrgIndex = 0 ∧ r.ProjectName = [] := by
  obtain ⟨-, before, s, after, -, rfl, -⟩ := extractAux_first specs [] r hr
  exact ⟨rfl, rfl, rfl⟩

theorem classified_invariant (orgs : List GoStr) (pm : GoStr)
    (specs : List ParsedImport) (r : Import)
    (hr : r ∈ (extractImports specs).map (classifyRecord orgs pm)) :
    r.Group = classifyImport orgs r.Path pm ∧
    (OrgGroupBase ≤ r.Group →
      r.OrgIndex = (getOrgInfo orgs r.Path).1 ∧
      r.ProjectName = (getOrgInfo orgs r.Path).2) ∧
    (¬ OrgGroupBase ≤ r.Group → r.OrgIndex = 0 ∧ r.ProjectName = []) := by
  obtain ⟨r₀, hr₀, rfl⟩ := List.mem_map.mp hr
  obtain ⟨-, h0idx, h0pn⟩ := extract_default specs r₀ hr₀
  have hpath := classifyRecord_Path orgs pm r₀
  have hgrp := classifyRecord_Group orgs pm r₀
  have hgrp2 : (classifyRecord orgs pm r₀).Group =
      classifyImport orgs (classifyRecord orgs pm r₀).Path pm := by
    rw [hpath]; exact hgrp
  refine ⟨hgrp2, ?_, ?_⟩
  · intro h
    rw [hgrp2, hpath] at h
    have h2 := classifyRecord_org orgs pm r₀ h
    rw [hpath]
    exact h2
  · intro h
    rw [hgrp2, hpath] at h
    have h2 := classifyRecord_nonorg orgs pm r₀ h
    rw [h2.1, h2.2, h0idx, h0pn]
    exact ⟨rfl, rfl⟩

theorem bucket_orgIndex (orgs : List GoStr) (pm : GoStr)
    (specs : List ParsedImport) (i : Nat) (r : Import)
    (hr : r ∈ groupImports orgs pm (extractImports specs) (OrgGroupBase + i)) :
    r.OrgIndex = (i : Int) := by
  obtain ⟨hmem, hgrp⟩ := groupImports_mem orgs pm _ _ r hr
  obtain ⟨hcls, horg, -⟩ := classified_invariant orgs pm specs r hmem
  have hge : OrgGroupBase ≤ r.Group := by rw [hgrp]; omega
  have h1 := (horg hge).1
  rw [h1]
  exact getOrgInfo_fst_of_classify orgs pm r.Path i (by rw [← hcls, hgrp])

theorem addOrg_bucket_eq (orgs : List GoStr) (pm : GoStr)
    (specs : List ParsedImport) (i : Nat) :
    addOrgImports (groupImports orgs pm (extractImports specs) (OrgGroupBase + i)) =
    groupImports orgs pm (extractImports specs) (OrgGroupBase + i) :=
  addOrgImports_eq_self (i : Int) _
    (fun r hr => bucket_orgIndex orgs pm specs i r hr)
    (sortInGroup_sorted_org _ _ (by omega))

theorem flatMap_of_nil {α β : Type} :
    ∀ (l : List α), (l.flatMap (fun _ => ([] : List β))) = [] := by
  intro l
  induction l with
  | nil => rfl
  | cons a t ih => rw [List.flatMap_cons, ih]; rfl

theorem flatMap_ite_single {β : Type} :
    ∀ (n i₀ : Nat) (f : Nat → List β), i₀ < n →
      ((List.range n).flatMap (fun i => if i = i₀ then f i else [])) = f i₀ := by
  intro n
  induction n with
  | zero => intro i₀ f h; omega
  | succ m ih =>
    intro i₀ f h
    rw [List.range_succ, List.flatMap_append]
    by_cases hc : i₀ = m
    · subst hc
      have h1 : (List.range i₀).flatMap (fun i => if i = i₀ then f i else []) = [] := by
        rw [flatMap_congr (List.range i₀) (g := fun _ => ([] : List β))]
        · exact flatMap_of_nil _
        · intro a ha
          rw [if_neg]
          intro hcc
          exact absurd (List.mem_range.mp ha) (by omega)
      rw [h1]
      simp
    · have h2 : i₀ < m := by omega
      rw [ih i₀ f h2]
      simp [hc]
      intro hcc
      exact absurd hcc (by omega)

theorem filter_group_of_all (g g' : Nat) (l : List Import)
    (hall : ∀ r ∈ l, r.Group = g') :
    l.filter (fun r => decide (r.Group = g)) = if g = g' then l else [] := by
  by_cases h : g = g'
  · rw [if_pos h]
    apply List.filter_eq_self.mpr
    intro r hr
    simp [hall r hr, h]
  · rw [if_neg h]
    apply List.filter_eq_nil_iff.mpr
    intro r hr
    simp only [decide_eq_true_eq]
    rw [hall r hr]
    exact fun hc => h hc.symm

theorem groupImports_group (orgs : List GoStr) (pm : GoStr)
    (imports : List Import) (g : Nat) :
    ∀ r ∈ groupImports orgs pm imports g, r.Group = g :=
  fun r hr => (groupImports_mem orgs pm imports g r hr).2

theorem orgSpecs_pipeline_eq (orgs : List GoStr) (pm : GoStr)
    (specs : List ParsedImport) :
    orgSpecs orgs (groupImports orgs pm (extractImports specs)) =
    (List.range orgs.length).flatMap
      (fun i => groupImports orgs pm (extractImports specs) (OrgGroupBase + i)) := by
  unfold orgSpecs
  exact flatMap_congr _ (fun i _ => addOrg_bucket_eq orgs pm specs i)

theorem pipeline_filter_flatMap (orgs : List GoStr) (pm : GoStr)
    (specs : List ParsedImport) (g : Nat) :
    ((List.range orgs.length).flatMap
      (fun i => groupImports orgs pm (extractImports specs) (OrgGroupBase + i))).filter
        (fun r => decide (r.Group = g)) =
    (List.range orgs.length).flatMap
      (fun i => if g = OrgGroupBase + i
        then groupImports orgs pm (extractImports specs) (OrgGroupBase + i)
        else []) := by
  induction (List.range orgs.length) with
  | nil => rfl
  | cons a t ih =>
    rw [List.flatMap_cons, List.flatMap_cons, List.filter_append, ih,
        filter_group_of_all g (OrgGroupBase + a) _
          (groupImports_group orgs pm (extractImports specs) (OrgGroupBase + a))]

theorem pipeline_filter_low (orgs : List GoStr) (pm : GoStr)
    (specs : List ParsedImport) (g : Nat) (hg : g < OrgGroupBase) :
    (importSpecs orgs (groupImports orgs pm (extractImports specs))).filter
      (fun r => decide (r.Group = g)) =
    (if g = StdGroup then groupImports orgs pm (extractImports specs) StdGroup else []) ++
    (if g = ThirdPartyGroup then groupImports orgs pm (extractImports specs) ThirdPartyGroup else []) ++
    (if g = ProjectGroup then groupImports orgs pm (extractImports specs) ProjectGroup else []) := by
  unfold importSpecs
  rw [List.filter_append, List.filter_append, List.filter_append,
      orgSpecs_pipeline_eq, pipeline_filter_flatMap,
      filter_group_of_all g StdGroup _
        (groupImports_group orgs pm (extractImports specs) StdGroup),
      filter_group_of_all g ThirdPartyGroup _
        (groupImports_group orgs pm (extractImports specs) ThirdPartyGroup),
      filter_group_of_all g ProjectGroup _
        (groupImports_group orgs pm (extractImports specs) ProjectGroup)]
  have horg : (List.range orgs.length).flatMap
      (fun i => if g = OrgGroupBase + i
        then groupImports orgs pm (extractImports specs) (OrgGroupBase + i)
        else []) = [] := by
    rw [flatMap_congr _ (g := fun _ => ([] : List Import))]
    · exact flatMap_of_nil _
    · intro i _
      rw [if_neg]
      unfold OrgGroupBase at *
      omega
  rw [horg]
  simp

theorem pipeline_filter_org (orgs : List GoStr) (pm : GoStr)
    (specs : List ParsedImport) (i₀ : Nat) (hi : i₀ < orgs.length) :
    (importSpecs orgs (groupImports orgs pm (extractImports specs))).filter
      (fun r => decide (r.Group = OrgGroupBase + i₀)) =
    groupImports orgs pm (extractImports specs) (OrgGroupBase + i₀) := by
  unfold importSpecs
  rw [List.filter_append, List.filter_append, List.filter_append,
      orgSpecs_pipeline_eq, pipeline_filter_flatMap,
      filter_group_of_all _ StdGroup _
        (groupImports_group orgs pm (extractImports specs) StdGroup),
      filter_group_of_all _ ThirdPartyGroup _
        (groupImports_group orgs pm (extractImports specs) ThirdPartyGroup),
      filter_group_of_all _ ProjectGroup _
        (groupImports_group orgs pm (extractImports specs) ProjectGroup)]
  have h0 : ¬ (OrgGroupBase + i₀ = StdGroup) := by unfold OrgGroupBase StdGroup; omega
  have h1 : ¬ (OrgGroupBase + i₀ = ThirdPartyGroup) := by
    unfold OrgGroupBase ThirdPartyGroup; omega
  have h2 : ¬ (OrgGroupBase + i₀ = ProjectGroup) := by
    unfold OrgGroupBase ProjectGroup; omega
  rw [if_neg h0, if_neg h1, if_neg h2]
  have horg : (List.range orgs.length).flatMap
      (fun i => if OrgGroupBase + i₀ = OrgGroupBase + i
        then groupImports orgs pm (extractImports specs) (OrgGroupBase + i)
        else []) =
      groupImports orgs pm (extractImports specs) (OrgGroupBase + i₀) := by
    rw [flatMap_congr _ (g := fun i =>
      if i = i₀ then groupImports orgs pm (extractImports specs) (OrgGroupBase + i)
      else [])]
    · exact flatMap_ite_single orgs.length i₀ _ hi
    · intro i _
      by_cases hc : i = i₀
      · rw [if_pos (by omega), if_pos hc]
      · rw [if_neg (by omega), if_neg hc]
  rw [horg]
  simp

theorem flatMap_perm_congr {α β : Type} {f g : α → List β} :
    ∀ (l : List α), (∀ a ∈ l, (f a).Perm (g a)) →
      (l.flatMap f).Perm (l.flatMap g) := by
  intro l
  induction l with
  | nil => intro _; rfl
  | cons a t ih =>
    intro h
    rw [List.flatMap_cons, List.flatMap_cons]
    exact (h a (by simp)).append (ih (fun x hx => h x (List.mem_cons_of_mem _ hx)))

theorem groupOrder_nodup (orgs : List GoStr) : (groupOrder orgs).Nodup := by
  unfold groupOrder
  have hmapnd : ((List.range orgs.length).map (fun i => OrgGroupBase + i)).Nodup :=
    List.Nodup.map (fun a b h => by omega) (List.nodup_range _)
  have hge : ∀ x ∈ (List.range orgs.length).map (fun i => OrgGroupBase + i),
      OrgGroupBase ≤ x := by
    intro x hx
    obtain ⟨i, -, rfl⟩ := List.mem_map.mp hx
    omega
  refine List.nodup_cons.mpr ⟨?_, List.nodup_cons.mpr ⟨?_, ?_⟩⟩
  · intro hmem
    rcases List.mem_cons.mp hmem with hc | hc
    · exact absurd hc (by unfold StdGroup ThirdPartyGroup; omega)
    · rcases List.mem_append.mp hc with hc' | hc'
      · exact absurd (hge _ hc') (by unfold StdGroup OrgGroupBase; omega)
      · exact absurd (by simpa using hc')
          (by unfold StdGroup ProjectGroup; omega)
  · intro hmem
    rcases List.mem_append.mp hmem with hc' | hc'
    · exact absurd (hge _ hc') (by unfold ThirdPartyGroup OrgGroupBase; omega)
    · exact absurd (by simpa using hc')
        (by unfold ThirdPartyGroup ProjectGroup; omega)
  · rw [List.nodup_append]
    refine ⟨hmapnd, by simp, ?_⟩
    intro x hx hx2
    have := hge x hx
    have : x = ProjectGroup := by simpa using hx2
    subst this
    exact absurd (hge _ hx) (by unfold ProjectGroup OrgGroupBase at *; omega)

theorem classified_group_mem (orgs : List GoStr) (pm : GoStr)
    (specs : List ParsedImport) (r : Import)
    (hr : r ∈ (extractImports specs).map (classifyRecord orgs pm)) :
    r.Group ∈ groupOrder orgs := by
  obtain ⟨hcls, -, -⟩ := classified_invariant orgs pm specs r hr
  unfold groupOrder
  rcases classify_cases orgs pm r.Path with h | h | h | ⟨i, hi, h⟩
  · rw [hcls, h]; simp
  · rw [hcls, h]; simp
  · rw [hcls, h]; simp
  · rw [hcls, h]
    refine List.mem_cons_of_mem _ (List.mem_cons_of_mem _
      (List.mem_append.mpr (Or.inl ?_)))
    exact List.mem_map.mpr ⟨i, List.mem_range.mpr hi, rfl⟩

theorem pipeline_perm_classified (orgs : List GoStr) (pm : GoStr)
    (specs : List ParsedImport) :
    (pipelineSpecs orgs pm specs).Perm
      ((extractImports specs).map (classifyRecord orgs pm)) := by
  unfold pipelineSpecs importSpecs
  rw [orgSpecs_pipeline_eq]
  have hflat : ((groupOrder orgs).flatMap
      (fun g => ((extractImports specs).map (classifyRecord orgs pm)).filter
        (fun r => decide (r.Group = g)))).Perm
      ((extractImports specs).map (classifyRecord orgs pm)) := by
    apply flatMap_filter_perm Import.Group (groupOrder orgs) _
      (groupOrder_nodup orgs)
    exact fun x hx => classified_group_mem orgs pm specs x hx
  refine List.Perm.trans ?_ hflat
  unfold groupOrder
  rw [List.flatMap_cons, List.flatMap_cons, List.flatMap_append,
      List.flatMap_map]
  simp only [List.flatMap_cons, List.flatMap_nil, List.append_nil]
  simp only [List.append_assoc]
  exact (groupImports_perm orgs pm (extractImports specs) StdGroup).append
    ((groupImports_perm orgs pm (extractImports specs) ThirdPartyGroup).append
      ((flatMap_perm_congr _ (fun i _ =>
        groupImports_perm orgs pm (extractImports specs) (OrgGroupBase + i))).append
        (groupImports_perm orgs pm (extractImports specs) ProjectGroup)))

theorem pipeline_paths_nodup (orgs : List GoStr) (pm : GoStr)
    (specs : List ParsedImport) :
    ((pipelineSpecs orgs pm specs).map Import.Path).Nodup := by
  have hperm := (pipeline_perm_classified orgs pm specs).map Import.Path
  have hcls : ((extractImports specs).map (classifyRecord orgs pm)).map
      Import.Path = (extractImports specs).map Import.Path := by
    rw [List.map_map]
    exact List.map_congr_left (fun r _ => classifyRecord_Path orgs pm r)
  rw [hcls] at hperm
  exact hperm.symm.nodup (extractAux_nodup_and_fresh specs []).1

theorem pipeline_mem_classified (orgs : List GoStr) (pm : GoStr)
    (specs : List ParsedImport) (r : Import)
    (hr : r ∈ pipelineSpecs orgs pm specs) :
    r ∈ (extractImports specs).map (classifyRecord orgs pm) :=
  (pipeline_perm_classified orgs pm specs).mem_iff.mp hr

theorem groupImports_sorted_org (orgs : List GoStr) (pm : GoStr)
    (imports : List Import) (g : Nat) (h : OrgGroupBase ≤ g) :
    List.Sorted rOrg (groupImports orgs pm imports g) := by
  unfold groupImports
  exact sortInGroup_sorted_org g _ h

theorem groupImports_sorted_path (orgs : List GoStr) (pm : GoStr)
    (imports : List Import) (g : Nat) (h : ¬ OrgGroupBase ≤ g) :
    List.Sorted rPath (groupImports orgs pm imports g) := by
  unfold groupImports
  exact sortInGroup_sorted_path g _ h

theorem pipeline_filter_std (orgs : List GoStr) (pm : GoStr)
    (specs : List ParsedImport) :
    (pipelineSpecs orgs pm specs).filter (fun r => decide (r.Group = StdGroup)) =
    groupImports orgs pm (extractImports specs) StdGroup := by
  unfold pipelineSpecs
  rw [pipeline_filter_low orgs pm specs StdGroup (by unfold StdGroup OrgGroupBase; omega),
      if_pos rfl, if_neg (by unfold StdGroup ThirdPartyGroup; omega),
      if_neg (by unfold StdGroup ProjectGroup; omega)]
  simp

theorem pipeline_filter_tp (orgs : List GoStr) (pm : GoStr)
    (specs : List ParsedImport) :
    (pipelineSpecs orgs pm specs).filter
      (fun r => decide (r.Group = ThirdPartyGroup)) =
    groupImports orgs pm (extractImports specs) ThirdPartyGroup := by
  unfold pipelineSpecs
  rw [pipeline_filter_low orgs pm specs ThirdPartyGroup
        (by unfold ThirdPartyGroup OrgGroupBase; omega),
      if_neg (by unfold StdGroup ThirdPartyGroup; omega), if_pos rfl,
      if_neg (by unfold ThirdPartyGroup ProjectGroup; omega)]
  simp

theorem pipeline_filter_proj (orgs : List GoStr) (pm : GoStr)
    (specs : List ParsedImport) :
    (pipelineSpecs orgs pm specs).filter
      (fun r => decide (r.Group = ProjectGroup)) =
    groupImports orgs pm (extractImports specs) ProjectGroup := by
  unfold pipelineSpecs
  rw [pipeline_filter_low orgs pm specs ProjectGroup
        (by unfold ProjectGroup OrgGroupBase; omega),
      if_neg (by unfold StdGroup ProjectGroup; omega),
      if_neg (by unfold ThirdPartyGroup ProjectGroup; omega), if_pos rfl]
  simp

theorem pipeline_filter_orgGroup (orgs : List GoStr) (pm : GoStr)
    (specs : List ParsedImport) (i : Nat) (hi : i < orgs.length) :
    (pipelineSpecs orgs pm specs).filter
      (fun r => decide (r.Group = OrgGroupBase + i)) =
    groupImports orgs pm (extractImports specs) (OrgGroupBase + i) := by
  unfold pipelineSpecs
  exact pipeline_filter_org orgs pm specs i hi

theorem classifyRecord_tau (orgs : List GoStr) (pm : GoStr) (r : Import)
    (hg : r.Group = classifyImport orgs r.Path pm)
    (horg : OrgGroupBase ≤ r.Group →
      r.OrgIndex = (getOrgInfo orgs r.Path).1 ∧
      r.ProjectName = (getOrgInfo orgs r.Path).2)
    (hnon : ¬ OrgGroupBase ≤ r.Group → r.OrgIndex = 0 ∧ r.ProjectName = []) :
    classifyRecord orgs pm (toImport (reparseImport r)) = normImport r := by
  obtain ⟨nm, p, c, g, oi, pn⟩ := r
  simp only at hg horg hnon
  by_cases h : OrgGroupBase ≤ classifyImport orgs p pm
  · obtain ⟨h1, h2⟩ := horg (by rw [hg]; exact h)
    simp [classifyRecord, toImport, reparseImport, normImport, h, hg, h1, h2]
  · obtain ⟨h1, h2⟩ := hnon (by rw [hg]; exact h)
    simp [classifyRecord, toImport, reparseImport, normImport, h, hg, h1, h2]

theorem extract_reparse (orgs : List GoStr) (pm : GoStr)
    (specs : List ParsedImport) :
    extractImports ((pipelineSpecs orgs pm specs).map reparseImport) =
    (pipelineSpecs orgs pm specs).map (fun r => toImport (reparseImport r)) := by
  have hpaths : (((pipelineSpecs orgs pm specs).map reparseImport).map
      ParsedImport.path) = (pipelineSpecs orgs pm specs).map Import.Path := by
    rw [List.map_map]
    exact List.map_congr_left (fun r _ => rfl)
  have hnd : (((pipelineSpecs orgs pm specs).map reparseImport).map
      ParsedImport.path).Nodup := by
    rw [hpaths]
    exact pipeline_paths_nodup orgs pm specs
  unfold extractImports
  rw [extractAux_of_nodup _ [] hnd (fun s _ => by simp), List.map_map]
  rfl

theorem classified_reparse (orgs : List GoStr) (pm : GoStr)
    (specs : List ParsedImport) :
    (extractImports ((pipelineSpecs orgs pm specs).map reparseImport)).map
      (classifyRecord orgs pm) =
    (pipelineSpecs orgs pm specs).map normImport := by
  rw [extract_reparse, List.map_map]
  apply List.map_congr_left
  intro r hr
  obtain ⟨hg, horg, hnon⟩ := classified_invariant orgs pm specs r
    (pipeline_mem_classified orgs pm specs r hr)
  exact classifyRecord_tau orgs pm r hg horg hnon

theorem filter_norm_comm (g : Nat) (l : List Import) :
    (l.map normImport).filter (fun r => decide (r.Group = g)) =
    (l.filter (fun r => decide (r.Group = g))).map normImport := by
  rw [List.filter_map]
  exact congrArg (List.map normImport) (List.filter_congr (fun x _ => rfl))

theorem gi2_eq_low (orgs : List GoStr) (pm : GoStr) (specs : List ParsedImport)
    (g : Nat) (hgl : ¬ OrgGroupBase ≤ g)
    (hfil : (pipelineSpecs orgs pm specs).filter
        (fun r => decide (r.Group = g)) =
      groupImports orgs pm (extractImports specs) g) :
    groupImports orgs pm
        (extractImports ((pipelineSpecs orgs pm specs).map reparseImport)) g =
    (groupImports orgs pm (extractImports specs) g).map normImport := by
  unfold groupImports
  rw [classified_reparse, filter_norm_comm]
  rw [show (pipelineSpecs orgs pm specs).filter (fun r => decide (r.Group = g)) =
        groupImports orgs pm (extractImports specs) g from hfil]
  apply sortInGroup_eq_path g _ hgl
  apply (List.pairwise_map).mpr
  exact (groupImports_sorted_path orgs pm (extractImports specs) g hgl).imp
    (fun hab => hab)

theorem gi2_eq_org (orgs : List GoStr) (pm : GoStr) (specs : List ParsedImport)
    (i : Nat) (hi : i < orgs.length) :
    groupImports orgs pm
        (extractImports ((pipelineSpecs orgs pm specs).map reparseImport))
        (OrgGroupBase + i) =
    (groupImports orgs pm (extractImports specs) (OrgGroupBase + i)).map
      normImport := by
  unfold groupImports
  rw [classified_reparse, filter_norm_comm]
  rw [show (pipelineSpecs orgs pm specs).filter
        (fun r => decide (r.Group = OrgGroupBase + i)) =
      groupImports orgs pm (extractImports specs) (OrgGroupBase + i) from
    pipeline_filter_orgGroup orgs pm specs i hi]
  apply sortInGroup_eq_org _ _ (by omega)
  apply (List.pairwise_map).mpr
  exact (groupImports_sorted_org orgs pm (extractImports specs) _
    (by omega)).imp (fun hab => hab)

theorem addOrg_map_norm (orgs : List GoStr) (pm : GoStr)
    (specs : List ParsedImport) (i : Nat) :
    addOrgImports ((groupImports orgs pm (extractImports specs)
        (OrgGroupBase + i)).map normImport) =
    (groupImports orgs pm (extractImports specs) (OrgGroupBase + i)).map
      normImport := by
  apply addOrgImports_eq_self (i : Int)
  · intro a ha
    obtain ⟨b, hb, rfl⟩ := List.mem_map.mp ha
    exact bucket_orgIndex orgs pm specs i b hb
  · apply (List.pairwise_map).mpr
    exact (groupImports_sorted_org orgs pm (extractImports specs) _
      (by omega)).imp (fun hab => hab)

theorem pipeline_reparse (orgs : List GoStr) (pm : GoStr)
    (specs : List ParsedImport) :
    pipelineSpecs orgs pm ((pipelineSpecs orgs pm specs).map reparseImport) =
    (pipelineSpecs orgs pm specs).map normImport := by
  show importSpecs orgs (groupImports orgs pm
      (extractImports ((pipelineSpecs orgs pm specs).map reparseImport))) =
    (pipelineSpecs orgs pm specs).map normImport
  unfold importSpecs
  rw [gi2_eq_low orgs pm specs StdGroup (by unfold StdGroup OrgGroupBase; omega)
        (pipeline_filter_std orgs pm specs),
      gi2_eq_low orgs pm specs ThirdPartyGroup
        (by unfold ThirdPartyGroup OrgGroupBase; omega)
        (pipeline_filter_tp orgs pm specs),
      gi2_eq_low orgs pm specs ProjectGroup
        (by unfold ProjectGroup OrgGroupBase; omega)
        (pipeline_filter_proj orgs pm specs)]
  have horg2 : orgSpecs orgs (groupImports orgs pm
      (extractImports ((pipelineSpecs orgs pm specs).map reparseImport))) =
      ((List.range orgs.length).flatMap
        (fun i => groupImports orgs pm (extractImports specs)
          (OrgGroupBase + i))).map normImport := by
    unfold orgSpecs
    rw [List.map_flatMap]
    apply flatMap_congr
    intro i hi
    rw [gi2_eq_org orgs pm specs i (List.mem_range.mp hi)]
    exact addOrg_map_norm orgs pm specs i
  rw [horg2]
  conv_rhs => unfold pipelineSpecs importSpecs
  rw [orgSpecs_pipeline_eq]
  rw [List.map_append, List.map_append, List.map_append]

theorem trimSpace_normComment (c : GoStr) :
    trimSpace (normComment c) = trimSpace c := by
  unfold normComment
  by_cases h : trimSpace c = []
  · rw [if_pos h, trimSpace_nil, h]
  · rw [if_neg h, trimSpace_append_newline]

theorem formatImportSpec_norm (r : Import) :
    formatImportSpec (normImport r) = formatImportSpec r := by
  obtain ⟨nm, p, c, g, oi, pn⟩ := r
  simp [formatImportSpec, normImport, trimSpace_normComment]

theorem shouldAdd_map_norm (orgs : List GoStr) (pm : GoStr)
    (l : List Import) (i : Nat) :
    shouldAddSpacingBetweenImports orgs pm (l.map normImport) i =
    shouldAddSpacingBetweenImports orgs pm l i := by
  unfold shouldAddSpacingBetweenImports
  by_cases hi : i = 0
  · simp [hi]
  · rw [if_neg hi, if_neg hi]
    cases hc : l[i]? with
    | none => rw [List.getElem?_map, hc]; cases hp : l[i-1]? <;>
        rw [List.getElem?_map, hp] <;> rfl
    | some cur =>
      cases hp : l[i-1]? with
      | none => rw [List.getElem?_map, hc, List.getElem?_map, hp]; rfl
      | some prev =>
        rw [List.getElem?_map, hc, List.getElem?_map, hp]
        rfl

theorem importEntryLines_norm (orgs : List GoStr) (pm : GoStr)
    (l : List Import) :
    importEntryLines orgs pm (l.map normImport) = importEntryLines orgs pm l := by
  unfold importEntryLines
  rw [List.length_map]
  apply flatMap_congr
  intro i _
  rw [List.getElem?_map]
  cases hs : l[i]? with
  | none => rfl
  | some s =>
    simp only [Option.map_some']
    rw [shouldAdd_map_norm, formatImportSpec_norm]

theorem importBlock_norm (orgs : List GoStr) (pm : GoStr) (l : List Import) :
    importBlock orgs pm (l.map normImport) = importBlock orgs pm l := by
  unfold importBlock
  cases l with
  | nil => rfl
  | cons a t =>
    rw [importEntryLines_norm]
    rfl

theorem pipeline_ne_nil (orgs : List GoStr) (pm : GoStr)
    (specs : List ParsedImport) (h : specs ≠ []) :
    pipelineSpecs orgs pm specs ≠ [] := by
  have hex : extractImports specs ≠ [] := by
    cases specs with
    | nil => exact absurd rfl h
    | cons s rest =>
      unfold extractImports extractImportsAux
      rw [if_neg (by simp)]
      simp
  have hcls : (extractImports specs).map (classifyRecord orgs pm) ≠ [] := by
    simpa using hex
  have hperm := pipeline_perm_classified orgs pm specs
  intro hnil
  rw [hnil] at hperm
  have := hperm.length_eq
  simp only [List.length_nil] at this
  exact hcls (List.eq_nil_of_length_eq_zero this.symm)

/-- C6 kernel: re-running the whole pipeline on the re-parsed emitted entries
renders exactly the same import block. -/
theorem formatFileLines_reparse (orgs : List GoStr) (pm : GoStr)
    (specs : List ParsedImport) (printed : List GoStr) :
    formatFileLines orgs pm
      (pipelineSpecs orgs pm ((pipelineSpecs orgs pm specs).map reparseImport))
      printed =
    formatFileLines orgs pm (pipelineSpecs orgs pm specs) printed := by
  rw [pipeline_reparse]
  unfold formatFileLines
  rw [importBlock_norm]

theorem insertAfterPackage_spec (block : List GoStr) :
    ∀ (pre : List GoStr) (pkg : GoStr) (post : List GoStr),
      (∀ l ∈ pre, isPackageLine l = false) → isPackageLine pkg = true →
      insertAfterPackage block (pre ++ pkg :: post) =
        pre ++ pkg :: (block ++ post) := by
  intro pre
  induction pre with
  | nil =>
    intro pkg post _ hpkg
    rw [List.nil_append, List.nil_append]
    unfold insertAfterPackage
    rw [if_pos hpkg]
  | cons a t ih =>
    intro pkg post hpre hpkg
    rw [List.cons_append, List.cons_append]
    unfold insertAfterPackage
    rw [if_neg (by simp [hpre a (by simp)])]
    rw [ih pkg post (fun l hl => hpre l (List.mem_cons_of_mem _ hl)) hpkg]

theorem goSplit_ne_nil (sep : Char) : ∀ (l : GoStr), goSplit sep l ≠ [] := by
  intro l
  induction l with
  | nil => simp [goSplit]
  | cons c rest ih =>
    unfold goSplit
    by_cases h : c = sep
    · simp [h]
    · rw [if_neg h]
      cases hs : goSplit sep rest with
      | nil => exact absurd hs ih
      | cons seg segs => simp

theorem goSplit_headD (l : GoStr) :
    (goSplit '/' l).headD [] = l.takeWhile (fun c => decide (c ≠ '/')) := by
  induction l with
  | nil => rfl
  | cons c rest ih =>
    unfold goSplit
    by_cases h : c = '/'
    · simp [h, List.takeWhile_cons]
    · rw [if_neg h]
      cases hs : goSplit '/' rest with
      | nil => exact absurd hs (goSplit_ne_nil '/' rest)
      | cons seg segs =>
        rw [hs] at ih
        simp only [List.headD_cons] at ih
        have hfun : (fun c : Char => !decide (c = '/')) =
            (fun c : Char => decide (c ≠ '/')) := by
          funext x
          simp [decide_not]
        simp only [List.headD_cons, List.takeWhile_cons, h, decide_not]
        rw [hfun, if_pos (by simp [h])]
        rw [ih]

theorem trimPfx_sep (x : GoStr) : trimPfx x (str "/") = dropOneSep x := by
  unfold trimPfx hasPfx str dropOneSep
  cases x with
  | nil => rfl
  | cons c rest =>
    by_cases h : c = '/'
    · subst h
      rw [if_pos (by simp [List.isPrefixOf])]
      rfl
    · rw [if_neg (by simp [List.isPrefixOf]; exact fun hc => h hc.symm)]
      show c :: rest = if c = '/' then rest else c :: rest
      rw [if_neg h]

theorem bucket_ne_of_mem (orgs : List GoStr) (pm : GoStr)
    (specs : List ParsedImport) (r : Import)
    (hr : r ∈ (extractImports specs).map (classifyRecord orgs pm)) :
    groupImports orgs pm (extractImports specs) r.Group ≠ [] := by
  have hmem : r ∈ ((extractImports specs).map (classifyRecord orgs pm)).filter
      (fun x => decide (x.Group = r.Group)) :=
    List.mem_filter.mpr ⟨hr, by simp⟩
  intro hnil
  have hperm := groupImports_perm orgs pm (extractImports specs) r.Group
  rw [hnil] at hperm
  exact absurd (hperm.symm.mem_iff.mp hmem) (by simp)

theorem pipeline_hasImports (orgs : List GoStr) (pm : GoStr)
    (specs : List ParsedImport) (hne : specs ≠ []) :
    (!(groupImports orgs pm (extractImports specs) StdGroup).isEmpty ||
     !(groupImports orgs pm (extractImports specs) ThirdPartyGroup).isEmpty ||
     !(groupImports orgs pm (extractImports specs) ProjectGroup).isEmpty ||
     hasOrgImports orgs (groupImports orgs pm (extractImports specs))) = true := by
  have hex : extractImports specs ≠ [] := by
    cases specs with
    | nil => exact absurd rfl hne
    | cons s rest =>
      unfold extractImports extractImportsAux
      rw [if_neg (by simp)]
      simp
  obtain ⟨a, t, hat⟩ : ∃ a t, extractImports specs = a :: t := by
    cases hx : extractImports specs with
    | nil => exact absurd hx hex
    | cons a t => exact ⟨a, t, rfl⟩
  have hcmem : classifyRecord orgs pm a ∈
      (extractImports specs).map (classifyRecord orgs pm) := by
    rw [hat]; simp
  have hbne := bucket_ne_of_mem orgs pm specs _ hcmem
  rw [classifyRecord_Group] at hbne
  have hisEmpty : ∀ l : List Import, l ≠ [] → l.isEmpty = false := by
    intro l hl
    cases l with
    | nil => exact absurd rfl hl
    | cons x xs => rfl
  rcases classify_cases orgs pm a.Path with h | h | h | ⟨i, hi, h⟩
  · rw [h] at hbne
    rw [hisEmpty _ hbne]
    simp
  · rw [h] at hbne
    rw [hisEmpty _ hbne]
    simp
  · rw [h] at hbne
    rw [hisEmpty _ hbne]
    simp
  · rw [h] at hbne
    have horg : hasOrgImports orgs
        (groupImports orgs pm (extractImports specs)) = true := by
      unfold hasOrgImports
      rw [List.any_eq_true]
      exact ⟨i, List.mem_range.mpr hi, by rw [hisEmpty _ hbne]; rfl⟩
    rw [horg]
    simp

theorem processFilesCounts_aux (run : GoStr → Bool) :
    ∀ (paths : List GoStr) (a b : Nat),
      paths.foldl
        (fun acc p => if run p then (acc.1 + 1, acc.2) else (acc.1, acc.2 + 1))
        (a, b) =
      (a + (paths.filter run).length,
       b + (paths.filter (fun p => !run p)).length) := by
  intro paths
  induction paths with
  | nil => intro a b; simp
  | cons p t ih =>
    intro a b
    rw [List.foldl_cons]
    by_cases h : run p = true
    · rw [if_pos h, ih, List.filter_cons_of_pos h,
          List.filter_cons_of_neg (by simp [h])]
      simp
      omega
    · rw [if_neg h, ih, List.filter_cons_of_neg h,
          List.filter_cons_of_pos (by simp [h])]
      simp
      omega

/-- C2 counterexample: with an empty resolved project module, the import path
`github.com/external/lib` — not standard, matching no configured organization
prefix (none are configured) — is classified Project, not ThirdParty as the
claim states, because the empty string is a prefix of every path. -/
theorem classifyImport_empty_project_cex :
    IsStandardPackage (str "github.com/external/lib") = false ∧
    (∀ o ∈ ([] : List GoStr), hasPfx (str "github.com/external/lib") o = false) ∧
    classifyImport [] (str "github.com/external/lib") [] = ProjectGroup ∧
    ProjectGroup ≠ ThirdPartyGroup := by
  refine ⟨by decide, by simp, by decide, by decide⟩

/-- C2 (amended): when no project prefix is known (empty string), the
classifier assigns the Project group to every import path that is not in the
standard-library set — the empty prefix matches every path, so no such path
is ever classified ThirdParty or Organization. -/
theorem classifyImport_empty_project (orgs : List GoStr) (p : GoStr)
    (h : IsStandardPackage p = false) :
    classifyImport orgs p [] = ProjectGroup := by
  unfold classifyImport isStdImport
  rw [if_neg (by simp [h]),
      if_pos (show hasPfx p [] = true by cases p <;> rfl)]

/-- C2 witness: the amended rule applied to a concrete third-party-looking
path with a configured organization present. -/
theorem classifyImport_empty_project_witness :
    IsStandardPackage (str "github.com/spf13/cobra") = false ∧
    classifyImport [str "github.com/myorg"] (str "github.com/spf13/cobra") [] =
      ProjectGroup :=
  ⟨by decide, classifyImport_empty_project [str "github.com/myorg"]
    (str "github.com/spf13/cobra") (by decide)⟩

/-- C3 counterexample: with the non-empty project prefix
`github.com/test/project`, the non-standard path
`github.com/test/projectextra/lib` is not a path-segment-respecting extension
of the prefix (the character after the prefix is `e`), yet `classifyImport`
assigns Project — the code's test is a plain string-prefix test. -/
theorem classifyImport_segment_cex :
    IsStandardPackage (str "github.com/test/projectextra/lib") = false ∧
    segRespecting (str "github.com/test/project")
      (str "github.com/test/projectextra/lib") = false ∧
    (str "github.com/test/project") ≠ [] ∧
    classifyImport [] (str "github.com/test/projectextra/lib")
      (str "github.com/test/project") = ProjectGroup := by
  refine ⟨by decide, by decide, by decide, by decide⟩

/-- C3 (amended): for every non-standard import path and non-empty project
prefix, `classifyImport` assigns the Project group exactly when the project
prefix is a plain string prefix of the path (not a path-segment-respecting
one), and this check is performed before the organization-prefix scan: a
matching project prefix yields Project regardless of the configured
organizations. -/
theorem classifyImport_plain_project (orgs : List GoStr) (p pm : GoStr)
    (hstd : IsStandardPackage p = false) (_hpm : pm ≠ []) :
    classifyImport orgs p pm = ProjectGroup ↔ hasPfx p pm = true := by
  unfold classifyImport isStdImport
  rw [if_neg (by simp [hstd])]
  by_cases h : hasPfx p pm = true
  · rw [if_pos h]
    simp [h]
  · rw [if_neg h]
    constructor
    · intro hc
      cases hf : findOrg orgs p with
      | none =>
        rw [hf] at hc
        have hc' : ThirdPartyGroup = ProjectGroup := hc
        exact absurd hc' (by unfold ThirdPartyGroup ProjectGroup; omega)
      | some io =>
        obtain ⟨i, org⟩ := io
        rw [hf] at hc
        have hc' : OrgGroupBase + i = ProjectGroup := hc
        exact absurd hc' (by unfold OrgGroupBase ProjectGroup; omega)
    · intro hc
      exact absurd hc h

/-- C3 witness: the amended rule applied at the counterexample's input, where
an organization prefix also matches but the project check wins. -/
theorem classifyImport_plain_project_witness :
    classifyImport [str "github.com/test"]
      (str "github.com/test/projectextra/lib")
      (str "github.com/test/project") = ProjectGroup ↔
    hasPfx (str "github.com/test/projectextra/lib")
      (str "github.com/test/project") = true :=
  classifyImport_plain_project [str "github.com/test"]
    (str "github.com/test/projectextra/lib") (str "github.com/test/project")
    (by decide) (by decide)

/-- C7: `extractImports` de-duplicates by path with the first occurrence
winning — the extracted paths are pairwise distinct, a path appears in the
output exactly when it appears in the input, and every extracted record is
built (alias and comment included) from the first input spec carrying its
path. -/
theorem extractImports_dedup (specs : List ParsedImport) :
    ((extractImports specs).map Import.Path).Nodup ∧
    (∀ p : GoStr, (∃ r ∈ extractImports specs, r.Path = p) ↔
      ∃ s ∈ specs, s.path = p) ∧
    ∀ r ∈ extractImports specs, ∃ before s after,
      specs = before ++ s :: after ∧ r = toImport s ∧
      ∀ t ∈ before, t.path ≠ r.Path := by
  refine ⟨(extractAux_nodup_and_fresh specs []).1, ?_, ?_⟩
  · intro p
    have h := extractAux_path_mem specs [] p
    simp only [List.not_mem_nil, not_false_iff, true_and] at h
    exact h
  · intro r hr
    obtain ⟨-, before, s, after, hsplit, hrs, hbefore⟩ :=
      extractAux_first specs [] r hr
    exact ⟨before, s, after, hsplit, hrs, hbefore⟩

/-- C7 witness: the de-duplication property applied to a concrete list with a
duplicated path carrying a different alias and comment. -/
theorem extractImports_dedup_witness :
    ((extractImports
      [{name := str "f", path := str "fmt", comment := str "one"},
       {name := [], path := str "fmt", comment := str "two"},
       {name := [], path := str "os", comment := []}]).map Import.Path).Nodup :=
  (extractImports_dedup _).1

/-- C10: organization matching in `classifyImport` and `getOrgInfo` is a plain
string-prefix test: a non-standard path that does not carry the project prefix
and whose characters start with the first-matching configured organization
prefix is assigned that organization's group — no path-separator check — and
the sub-project name is the first segment of the raw string remainder after
stripping the prefix and at most one leading separator. -/
theorem org_plain_prefix_matching (orgs : List GoStr) (pm p : GoStr) (i : Nat)
    (org : GoStr) (hget : orgs[i]? = some org)
    (hfirst : ∀ j, j < i → ∀ o, orgs[j]? = some o → hasPfx p o = false)
    (hmatch : hasPfx p org = true)
    (hstd : IsStandardPackage p = false)
    (hproj : hasPfx p pm = false) :
    classifyImport orgs p pm = OrgGroupBase + i ∧
    getOrgInfo orgs p =
      ((i : Int),
        (dropOneSep (p.drop org.length)).takeWhile (fun c => decide (c ≠ '/'))) := by
  have hf : findOrg orgs p = some (i, org) :=
    findOrg_first orgs p i org hget hmatch hfirst
  constructor
  · unfold classifyImport isStdImport
    rw [if_neg (by simp [hstd]), if_neg (by simp [hproj]), hf]
  · unfold getOrgInfo
    rw [hf]
    have h1 : trimPfx p org = p.drop org.length := by
      unfold trimPfx
      rw [if_pos hmatch]
    show ((i : Int), (goSplit '/' (trimPfx (trimPfx p org) (str "/"))).headD []) = _
    rw [h1, trimPfx_sep, goSplit_headD]

/-- C10 witness: the configured prefix `github.com/myorg` captures
`github.com/myorgextra/lib` although the character after the prefix is `e`,
and the derived sub-project name is `extra`. -/
theorem org_plain_prefix_matching_witness :
    classifyImport [str "github.com/myorg"] (str "github.com/myorgextra/lib")
      (str "gitlab.com/zzz") = OrgGroupBase + 0 ∧
    getOrgInfo [str "github.com/myorg"] (str "github.com/myorgextra/lib") =
      ((0 : Int), str "extra") := by
  have h := org_plain_prefix_matching [str "github.com/myorg"]
    (str "gitlab.com/zzz") (str "github.com/myorgextra/lib") 0
    (str "github.com/myorg") (by decide)
    (by intro j hj; exact absurd hj (Nat.not_lt_zero j)) (by decide)
    (by decide) (by decide)
  exact ⟨h.1, h.2.trans (by decide)⟩

/-- Frame lemma: when no printed line ahead of the package clause trips the
package-clause test, `formatFile` reproduces every printed line
byte-identically and only splices the rendered import block, with its
surrounding blank lines, directly after the package clause.  The hypothesis
is essential: see the C1 bug theorem below. -/
theorem formatFile_frame (orgs : List GoStr) (pm : GoStr) (specs : List Import)
    (pre post : List GoStr) (pkg : GoStr)
    (hpre : ∀ l ∈ pre, isPackageLine l = false)
    (hpkg : isPackageLine pkg = true) :
    formatFileLines orgs pm specs (pre ++ pkg :: post) =
      pre ++ pkg :: (importBlock orgs pm specs ++ post) := by
  unfold formatFileLines
  exact insertAfterPackage_spec _ pre pkg post hpre hpkg

/-- Frame lemma instance: a concrete file with a benign header comment, one
non-import declaration and one import entry; the header and declaration lines
reappear byte-identically around the inserted block. -/
theorem formatFile_frame_witness :
    formatFileLines [] (str "m") [{Path := str "fmt"}]
      ([str "// hdr"] ++ (str "package main") ::
        [[], str "func main() {}", []]) =
      [str "// hdr"] ++ (str "package main") ::
        (importBlock [] (str "m") [{Path := str "fmt"}] ++
          [[], str "func main() {}", []]) :=
  formatFile_frame [] (str "m") [{Path := str "fmt"}] [str "// hdr"]
    [[], str "func main() {}", []] (str "package main")
    (by intro l hl; simp at hl; rw [hl]; decide) (by decide)

/-- C1: the claimed frame property fails on the code — `formatFile` splices
the import block after the first line whose trimmed text starts with
`package `, and a header block comment containing such a line (here
`package shim`) receives the import block in its middle, altering the
comment's bytes and leaving nothing inserted below the real package clause. -/
theorem formatFile_package_comment_bug :
    isPackageLine (str "package shim") = true ∧
    formatFileLines [] (str "m") [{Path := str "fmt"}]
      [str "/*", str "package shim", str "*/", str "package main", [],
       str "func main() {}"] =
    [str "/*", str "package shim", [], str "import (", str "\t\"fmt\"",
     str ")", [], str "*/", str "package main", [], str "func main() {}"] := by
  refine ⟨by decide, by decide⟩

/-- C5: a blank line is inserted before emitted entry `i` exactly when
`i > 0` and either the two adjacent entries classify into different groups,
or both classify into an organization group and their derived sub-project
names differ and are both non-empty; no blank line is ever inserted before
the first entry. -/
theorem spacing_rule (orgs : List GoStr) (pm : GoStr) (specs : List Import)
    (i : Nat) (cur prev : Import) (hi : 0 < i)
    (hc : specs[i]? = some cur) (hp : specs[i-1]? = some prev) :
    (shouldAddSpacingBetweenImports orgs pm specs i = true ↔
      (classifyImport orgs cur.Path pm ≠ classifyImport orgs prev.Path pm ∨
       (OrgGroupBase ≤ classifyImport orgs cur.Path pm ∧
        OrgGroupBase ≤ classifyImport orgs prev.Path pm ∧
        (getOrgInfo orgs cur.Path).2 ≠ (getOrgInfo orgs prev.Path).2 ∧
        (getOrgInfo orgs prev.Path).2 ≠ [] ∧
        (getOrgInfo orgs cur.Path).2 ≠ []))) ∧
    shouldAddSpacingBetweenImports orgs pm specs 0 = false := by
  constructor
  · unfold shouldAddSpacingBetweenImports
    rw [if_neg (by omega), hc, hp]
    show (if classifyImport orgs cur.Path pm ≠ classifyImport orgs prev.Path pm
        then true
        else if OrgGroupBase ≤ classifyImport orgs cur.Path pm then
          decide ((getOrgInfo orgs cur.Path).2 ≠ (getOrgInfo orgs prev.Path).2) &&
          decide ((getOrgInfo orgs prev.Path).2 ≠ []) &&
          decide ((getOrgInfo orgs cur.Path).2 ≠ [])
        else false) = true ↔ _
    by_cases hg : classifyImport orgs cur.Path pm =
        classifyImport orgs prev.Path pm
    · rw [if_neg (by simp [hg])]
      by_cases ho : OrgGroupBase ≤ classifyImport orgs cur.Path pm
      · rw [if_pos ho]
        simp only [Bool.and_eq_true, decide_eq_true_eq]
        constructor
        · rintro ⟨⟨h1, h2⟩, h3⟩
          exact Or.inr ⟨ho, hg ▸ ho, h1, h2, h3⟩
        · rintro (hcase | ⟨-, -, h1, h2, h3⟩)
          · exact absurd hg hcase
          · exact ⟨⟨h1, h2⟩, h3⟩
      · rw [if_neg ho]
        constructor
        · intro hfalse
          exact absurd hfalse (by simp)
        · rintro (hcase | ⟨h1, -⟩)
          · exact absurd hg hcase
          · exact absurd h1 ho
    · rw [if_pos hg]
      simp [hg]
  · unfold shouldAddSpacingBetweenImports
    rw [if_pos rfl]

/-- C5 witness: the rule applied between two adjacent entries of the same
organization group with different non-empty sub-project names. -/
theorem spacing_rule_witness :
    (shouldAddSpacingBetweenImports [str "github.com/myorg"] (str "zz")
      [{Path := str "github.com/myorg/a/x"}, {Path := str "github.com/myorg/b/y"}]
      1 = true ↔
      (classifyImport [str "github.com/myorg"] (str "github.com/myorg/b/y")
          (str "zz") ≠
        classifyImport [str "github.com/myorg"] (str "github.com/myorg/a/x")
          (str "zz") ∨
       (OrgGroupBase ≤ classifyImport [str "github.com/myorg"]
          (str "github.com/myorg/b/y") (str "zz") ∧
        OrgGroupBase ≤ classifyImport [str "github.com/myorg"]
          (str "github.com/myorg/a/x") (str "zz") ∧
        (getOrgInfo [str "github.com/myorg"] (str "github.com/myorg/b/y")).2 ≠
          (getOrgInfo [str "github.com/myorg"] (str "github.com/myorg/a/x")).2 ∧
        (getOrgInfo [str "github.com/myorg"] (str "github.com/myorg/a/x")).2 ≠
          [] ∧
        (getOrgInfo [str "github.com/myorg"] (str "github.com/myorg/b/y")).2 ≠
          []))) ∧
    shouldAddSpacingBetweenImports [str "github.com/myorg"] (str "zz")
      [{Path := str "github.com/myorg/a/x"}, {Path := str "github.com/myorg/b/y"}]
      0 = false :=
  spacing_rule [str "github.com/myorg"] (str "zz")
    [{Path := str "github.com/myorg/a/x"}, {Path := str "github.com/myorg/b/y"}]
    1 {Path := str "github.com/myorg/b/y"} {Path := str "github.com/myorg/a/x"}
    (by decide) (by decide) (by decide)

/-- C8: a parseable file with zero imports is a no-op success — the output is
byte-identical to the input source and no in-place write is performed. -/
theorem process_no_imports (orgs : List GoStr) (pm : GoStr) (f : FileModel)
    (h : f.imports = []) :
    transformOutput orgs pm f = f.srcLines ∧
    ∀ inPlace : Bool, processWrites inPlace f = false := by
  unfold transformOutput processWrites
  rw [h]
  simp

/-- C8 witness: a concrete import-free file is returned untouched and never
written. -/
theorem process_no_imports_witness :
    transformOutput [] [] demoEmptyFile = [str "package main"] ∧
    processWrites true demoEmptyFile = false := by
  have h := process_no_imports [] [] demoEmptyFile rfl
  exact ⟨h.1, h.2 true⟩

/-- C9: `ProcessFiles` applies the single-file transform to every path — the
success counter counts exactly the succeeding paths, the failure counter
exactly the failing ones, the two counters always sum to the number of paths
(no file is skipped after a failure), and the batch returns an error exactly
when at least one file failed. -/
theorem processFiles_batch (run : GoStr → Bool) (paths : List GoStr) :
    (processFilesCounts run paths).1 = (paths.filter run).length ∧
    (processFilesCounts run paths).2 =
      (paths.filter (fun p => !run p)).length ∧
    (processFilesCounts run paths).1 + (processFilesCounts run paths).2 =
      paths.length ∧
    (processFilesHasError run paths = true ↔ ∃ p ∈ paths, run p = false) := by
  have hcounts : processFilesCounts run paths =
      ((paths.filter run).length, (paths.filter (fun p => !run p)).length) := by
    unfold processFilesCounts
    rw [processFilesCounts_aux run paths 0 0]
    simp
  refine ⟨by rw [hcounts], by rw [hcounts], ?_, ?_⟩
  · rw [hcounts]
    have := (List.filter_append_perm run paths).length_eq
    rw [List.length_append] at this
    exact this
  · unfold processFilesHasError
    rw [hcounts]
    simp only [decide_eq_true_eq]
    constructor
    · intro hlen
      have hne : paths.filter (fun p => !run p) ≠ [] := by
        intro hnil
        rw [hnil] at hlen
        simp at hlen
      cases hf : paths.filter (fun p => !run p) with
      | nil => exact absurd hf hne
      | cons a t =>
        have ha : a ∈ paths.filter (fun p => !run p) := by rw [hf]; simp
        have := List.mem_filter.mp ha
        exact ⟨a, this.1, by simpa using this.2⟩
    · rintro ⟨p, hp, hrun⟩
      have : p ∈ paths.filter (fun q => !run q) :=
        List.mem_filter.mpr ⟨hp, by simp [hrun]⟩
      cases hf : paths.filter (fun q => !run q) with
      | nil => rw [hf] at this; exact absurd this (by simp)
      | cons a t => simp

/-- C9 witness: a batch of three paths where the middle one fails — both
counters are populated, they sum to the path count, and the batch reports an
error. -/
theorem processFiles_batch_witness :
    (processFilesCounts (fun p => decide (p ≠ str "bad"))
      [str "a.go", str "bad", str "c.go"]).1 =
      ([str "a.go", str "bad", str "c.go"].filter
        (fun p => decide (p ≠ str "bad"))).length ∧
    (processFilesCounts (fun p => decide (p ≠ str "bad"))
      [str "a.go", str "bad", str "c.go"]).1 +
      (processFilesCounts (fun p => decide (p ≠ str "bad"))
        [str "a.go", str "bad", str "c.go"]).2 = 3 := by
  have h := processFiles_batch (fun p => decide (p ≠ str "bad"))
    [str "a.go", str "bad", str "c.go"]
  exact ⟨h.1, h.2.2.1⟩

/-- C6: the single-file transform is idempotent — re-parsing the transform's
output and transforming it again produces output identical to the first
transform's output. -/
theorem transform_idempotent (orgs : List GoStr) (pm : GoStr) (f : FileModel) :
    transformOutput orgs pm (parseOfOutput orgs pm f) =
      transformOutput orgs pm f := by
  by_cases h : f.imports.isEmpty = true
  · unfold parseOfOutput
    rw [if_pos h]
  · unfold parseOfOutput
    rw [if_neg h]
    have hne : f.imports ≠ [] := by
      intro hc
      rw [hc] at h
      exact h rfl
    have hEne : pipelineSpecs orgs pm f.imports ≠ [] :=
      pipeline_ne_nil orgs pm f.imports hne
    have h2 : ((pipelineSpecs orgs pm f.imports).map reparseImport).isEmpty =
        false := by
      cases hx : (pipelineSpecs orgs pm f.imports).map reparseImport with
      | nil =>
        exact absurd (by simpa using hx) hEne
      | cons a t => rfl
    have h1 : f.imports.isEmpty = false := by
      cases hx : f.imports.isEmpty with
      | false => rfl
      | true => exact absurd hx h
    simp only [transformOutput, h1, h2, Bool.false_eq_true, if_false]
    simp only [printedNoImports]
    exact formatFileLines_reparse orgs pm f.imports _

/-- C4: on a non-empty import list the re-emitter synthesizes exactly one
new import declaration, prepended as the first declaration ahead of the
retained non-import declarations; its entries are the Standard bucket, the ThirdParty
bucket, the organization buckets in configured prefix order, then the Project
bucket, where every empty bucket contributes nothing, each bucket is a
permutation of the records classified into its group, the three non-org
buckets are sorted by path, and every organization bucket is sorted primarily
by sub-project name and secondarily by path (sub-project clusters
contiguous). -/
theorem replaceImports_order (orgs : List GoStr) (pm : GoStr)
    (specs : List ParsedImport) (decls : List Decl) (hne : specs ≠ []) :
    replaceImports orgs decls (groupImports orgs pm (extractImports specs)) =
      Decl.imp (importSpecs orgs (groupImports orgs pm (extractImports specs))) ::
        decls.filter (fun d => !d.isImp) ∧
    importSpecs orgs (groupImports orgs pm (extractImports specs)) =
      groupImports orgs pm (extractImports specs) StdGroup ++
      groupImports orgs pm (extractImports specs) ThirdPartyGroup ++
      (List.range orgs.length).flatMap
        (fun i => groupImports orgs pm (extractImports specs) (OrgGroupBase + i)) ++
      groupImports orgs pm (extractImports specs) ProjectGroup ∧
    ((groupImports orgs pm (extractImports specs) StdGroup).Perm
      (((extractImports specs).map (classifyRecord orgs pm)).filter
        (fun r => decide (r.Group = StdGroup))) ∧
     List.Sorted rPath (groupImports orgs pm (extractImports specs) StdGroup)) ∧
    ((groupImports orgs pm (extractImports specs) ThirdPartyGroup).Perm
      (((extractImports specs).map (classifyRecord orgs pm)).filter
        (fun r => decide (r.Group = ThirdPartyGroup))) ∧
     List.Sorted rPath
       (groupImports orgs pm (extractImports specs) ThirdPartyGroup)) ∧
    ((groupImports orgs pm (extractImports specs) ProjectGroup).Perm
      (((extractImports specs).map (classifyRecord orgs pm)).filter
        (fun r => decide (r.Group = ProjectGroup))) ∧
     List.Sorted rPath
       (groupImports orgs pm (extractImports specs) ProjectGroup)) ∧
    ∀ i, i < orgs.length →
      (groupImports orgs pm (extractImports specs) (OrgGroupBase + i)).Perm
        (((extractImports specs).map (classifyRecord orgs pm)).filter
          (fun r => decide (r.Group = OrgGroupBase + i))) ∧
      List.Sorted rOrg
        (groupImports orgs pm (extractImports specs) (OrgGroupBase + i)) := by
  refine ⟨?_, ?_, ?_, ?_, ?_, ?_⟩
  · unfold replaceImports
    rw [if_pos (pipeline_hasImports orgs pm specs hne)]
  · unfold importSpecs
    rw [orgSpecs_pipeline_eq]
  · exact ⟨groupImports_perm orgs pm (extractImports specs) StdGroup,
      groupImports_sorted_path orgs pm (extractImports specs) StdGroup
        (by unfold StdGroup OrgGroupBase; omega)⟩
  · exact ⟨groupImports_perm orgs pm (extractImports specs) ThirdPartyGroup,
      groupImports_sorted_path orgs pm (extractImports specs) ThirdPartyGroup
        (by unfold ThirdPartyGroup OrgGroupBase; omega)⟩
  · exact ⟨groupImports_perm orgs pm (extractImports specs) ProjectGroup,
      groupImports_sorted_path orgs pm (extractImports specs) ProjectGroup
        (by unfold ProjectGroup OrgGroupBase; omega)⟩
  · intro i _
    exact ⟨groupImports_perm orgs pm (extractImports specs) (OrgGroupBase + i),
      groupImports_sorted_org orgs pm (extractImports specs) (OrgGroupBase + i)
        (by omega)⟩

/-- C4 witness: the re-emitter applied to the spec's running example —
one synthesized import declaration is prepended ahead of the retained
non-import declaration, and the first organization bucket is sorted. -/
theorem replaceImports_order_witness :
    replaceImports [str "github.com/myorg"] [Decl.other (str "func main() {}")]
      (groupImports [str "github.com/myorg"] (str "github.com/test/project")
        (extractImports demoSpecs)) =
      Decl.imp (importSpecs [str "github.com/myorg"]
        (groupImports [str "github.com/myorg"] (str "github.com/test/project")
          (extractImports demoSpecs))) ::
        [Decl.other (str "func main() {}")].filter (fun d => !d.isImp) ∧
    List.Sorted rOrg (groupImports [str "github.com/myorg"]
      (str "github.com/test/project") (extractImports demoSpecs)
      (OrgGroupBase + 0)) := by
  have h := replaceImports_order [str "github.com/myorg"]
    (str "github.com/test/project") demoSpecs
    [Decl.other (str "func main() {}")] (by decide)
  exact ⟨h.1, (h.2.2.2.2.2 0 (by decide)).2⟩

end Gig
